import Mathlib

set_option maxRecDepth 8000

/-!
Verification development for the `rewrite.md` marker-rewrite engine.

The engine (`rewriteMdComment` in the TypeScript source) scans a Markdown
document for HTML-comment marker pairs of the shape
`<!-- key:start --> ... <!-- key:end -->` and replaces the content between
each pair with a rendered value.  The source builds JavaScript regular
expressions from escaped key/role strings; here we embed the exact regex
fragment the source uses (literal characters, the class `\s`, the class
`[\s\S]`, and the quantifiers `*` and `*?`) together with a backtracking
semantics that mirrors the JavaScript engine (greedy `*` preferring longer
runs, lazy `*?` preferring shorter ones, leftmost match, `g`-flag scanning
that resumes after each match).
-/

namespace RewriteMd

/-- Whitespace per the JavaScript regex class `\s`:
tab, line feed, vertical tab, form feed, carriage return, space, NBSP,
Ogham space mark, the U+2000..U+200A range, line/paragraph separators,
narrow NBSP, medium mathematical space, ideographic space, and BOM. -/
def isJsWs (c : Char) : Bool :=
  c.toNat = 9 || c.toNat = 10 || c.toNat = 11 || c.toNat = 12 || c.toNat = 13 ||
  c.toNat = 32 || c.toNat = 160 || c.toNat = 5760 ||
  (8192 ≤ c.toNat && c.toNat ≤ 8202) ||
  c.toNat = 8232 || c.toNat = 8233 || c.toNat = 8239 || c.toNat = 8287 ||
  c.toNat = 12288 || c.toNat = 65279

/-- Single-character classes occurring in the source's patterns:
a literal character, `\s`, and `[\s\S]` (any character). -/
inductive RCls where
  | lit (c : Char)
  | wsC
  | anyC
deriving DecidableEq

/-- Whether a character belongs to a class. -/
def RCls.check : RCls → Char → Bool
  | .lit a, c => a = c
  | .wsC, c => isJsWs c
  | .anyC, _ => true

/-- Regex atoms in the fragment used by the source: a class matched once,
a greedy-starred class (`*`), and a lazily-starred class (`*?`). -/
inductive RAtom where
  | once (c : RCls)
  | star (c : RCls)
  | lazyStar (c : RCls)
deriving DecidableEq

/-- Length of the maximal leading run of characters in class `c`. -/
def runLen (c : RCls) : List Char → Nat
  | [] => 0
  | x :: xs => if c.check x then runLen c xs + 1 else 0

/-- All lengths of prefixes of `s` matched by the atom sequence, listed in
the backtracking engine's priority order: the leftmost atom's alternatives
vary slowest, a greedy star tries longer runs first, a lazy star shorter
runs first.  The JavaScript engine returns the first entry. -/
def seqLens : List RAtom → List Char → List Nat
  | [], _ => [0]
  | .once _ :: _, [] => []
  | .once c :: as, x :: xs =>
      if c.check x then (seqLens as xs).map (· + 1) else []
  | .star c :: as, s =>
      ((List.range (runLen c s + 1)).reverse).flatMap
        (fun k => (seqLens as (s.drop k)).map (· + k))
  | .lazyStar c :: as, s =>
      (List.range (runLen c s + 1)).flatMap
        (fun k => (seqLens as (s.drop k)).map (· + k))

/-- The length matched at the head of `s`, if any (backtracking priority). -/
def matchAt (as : List RAtom) (s : List Char) : Option Nat :=
  (seqLens as s).head?

/-- Fueled `g`-flag match counting, as done by `[...content.matchAll(re)].length`:
leftmost matches, resuming after each match (a zero-width match advances by
one, as in JavaScript).  Fuel `s.length + 1` always suffices. -/
def scanCountF (as : List RAtom) : Nat → List Char → Nat
  | 0, _ => 0
  | _ + 1, [] =>
    match matchAt as [] with
    | none => 0
    | some _ => 1
  | f + 1, c :: t =>
    match matchAt as (c :: t) with
    | none => scanCountF as f t
    | some n => 1 + scanCountF as f ((c :: t).drop (max n 1))

/-- Number of `g`-flag matches of the atom sequence in `s`. -/
def scanCount (as : List RAtom) (s : List Char) : Nat :=
  scanCountF as (s.length + 1) s

/-- Fueled `String.prototype.replaceAll(re, cb)`: each leftmost match `m`
is replaced by `f m`; unmatched characters are copied. -/
def replaceAllF (as : List RAtom) (f : List Char → List Char) :
    Nat → List Char → List Char
  | 0, s => s
  | fuel + 1, s =>
    match matchAt as s with
    | none =>
      match s with
      | [] => []
      | c :: t => c :: replaceAllF as f fuel t
    | some n =>
      match s with
      | [] => f []
      | c :: t =>
        if n = 0 then f [] ++ c :: replaceAllF as f fuel t
        else f (s.take n) ++ replaceAllF as f fuel (s.drop n)

/-- Replace every `g`-flag match of the atom sequence in `s` using `f`. -/
def replaceAll (as : List RAtom) (f : List Char → List Char) (s : List Char) :
    List Char :=
  replaceAllF as f (s.length + 1) s

/-- Fueled first-match search, as done by `str.match(re)[0]` for a global
regex: the text of the leftmost match, if any. -/
def firstMatchF (as : List RAtom) : Nat → List Char → Option (List Char)
  | 0, _ => none
  | _ + 1, [] => (matchAt as []).map (fun n => List.take n [])
  | f + 1, c :: t =>
    match matchAt as (c :: t) with
    | none => firstMatchF as f t
    | some n => some ((c :: t).take n)

/-- Text of the leftmost match of the atom sequence in `s`, if any. -/
def firstMatchStr (as : List RAtom) (s : List Char) : Option (List Char) :=
  firstMatchF as (s.length + 1) s

/-- Characters treated as special by the source's `escReg`
(the set `. * + ? ^ $ open-brace close-brace ( ) | [ ] backslash`). -/
def regexSpecial (c : Char) : Bool :=
  c = '.' || c = '*' || c = '+' || c = '?' || c = '^' || c = '$' ||
  c = Char.ofNat 123 || c = Char.ofNat 125 || c = '(' || c = ')' ||
  c = '|' || c = '[' || c = ']' || c = '\\'

/-- The source's `escReg`: prefix every regex-special character with a
backslash, leaving all other characters unchanged. -/
def escReg (v : String) : String :=
  String.mk (v.data.flatMap (fun c => if regexSpecial c then ['\\', c] else [c]))

/-- The class denoted by a backslash escape: `\s` is the whitespace class,
an escaped special character is that literal character. -/
def escCls (c : Char) : RCls :=
  if c = 's' then .wsC else .lit c

/-- Lexer state for the regex fragment the source's patterns live in:
`idle` between atoms, `afterBs` right after a backslash, `afterCls`
holding a class that may still receive a quantifier, `afterStar` holding a
starred class that may still receive the laziness `?`, and `br0`–`br4`
stepping through the literal class `[\s\S]`. -/
inductive LexSt where
  | idle
  | afterBs
  | afterCls (cl : RCls)
  | afterStar (cl : RCls)
  | br0
  | br1
  | br2
  | br3
  | br4
deriving DecidableEq

/-- One character of lexing: the atoms emitted and the next state, or
`none` when the pattern leaves the supported fragment (such patterns do
not arise from the source's templates). -/
def lexStep : LexSt → Char → Option (List RAtom × LexSt)
  | .idle, c =>
    if c = '\\' then some ([], .afterBs)
    else if c = '[' then some ([], .br0)
    else if regexSpecial c then none
    else some ([], .afterCls (.lit c))
  | .afterBs, c =>
    if c = 's' ∨ regexSpecial c = true then some ([], .afterCls (escCls c)) else none
  | .afterCls cl, c =>
    if c = '*' then some ([], .afterStar cl)
    else if c = '\\' then some ([.once cl], .afterBs)
    else if c = '[' then some ([.once cl], .br0)
    else if regexSpecial c then none
    else some ([.once cl], .afterCls (.lit c))
  | .afterStar cl, c =>
    if c = '?' then some ([.lazyStar cl], .idle)
    else if c = '\\' then some ([.star cl], .afterBs)
    else if c = '[' then some ([.star cl], .br0)
    else if regexSpecial c then none
    else some ([.star cl], .afterCls (.lit c))
  | .br0, c => if c = '\\' then some ([], .br1) else none
  | .br1, c => if c = 's' then some ([], .br2) else none
  | .br2, c => if c = '\\' then some ([], .br3) else none
  | .br3, c => if c = 'S' then some ([], .br4) else none
  | .br4, c => if c = ']' then some ([], .afterCls .anyC) else none

/-- Atoms still owed at the end of the pattern, or `none` if the pattern
ends mid-construct. -/
def lexFin : LexSt → Option (List RAtom)
  | .idle => some []
  | .afterCls cl => some [.once cl]
  | .afterStar cl => some [.star cl]
  | _ => none

/-- Run the lexer from a state over the remaining pattern characters. -/
def lexGo : LexSt → List Char → Option (List RAtom)
  | st, [] => lexFin st
  | st, c :: r =>
    match lexStep st c with
    | none => none
    | some p => (lexGo p.2 r).map (p.1 ++ ·)

/-- Compile a pattern string of the supported fragment to atoms. -/
def lexAtoms (s : List Char) : Option (List RAtom) :=
  lexGo .idle s

/-! ## The engine, translated from `rewriteMdComment` in the source -/

/-- A document value as the JavaScript function sees it: a string, a
`Buffer` (modelled by its UTF-8 text), `null`, or `undefined`. -/
inductive JsDoc where
  | str (s : String)
  | buf (b : String)
  | nullv
  | undefv
deriving DecidableEq

/-- The `data` argument: a plain object (own enumerable string keys in
iteration order, values rendered by `String(value)`, with `null` and
`undefined` collapsed to `none`), or any non-plain-object value
(`null`, `undefined`, an array, a primitive). -/
inductive JsData where
  | obj (entries : List (String × Option String))
  | notObj
deriving DecidableEq

/-- The options object of `rewriteMdComment`. -/
structure Options where
  preserveType : Bool
  startMarker : String
  endMarker : String
  allowRaw : Bool
deriving DecidableEq

/-- Defaults from the source's destructuring:
`preserveType = false`, `startMarker = "start"`, `endMarker = "end"`,
`allowRaw = false`. -/
def defaultOptions : Options :=
  ⟨false, "start", "end", false⟩

/-- The three `Error`s the source can throw. -/
inductive RewriteError where
  | markersUndefined
  | keyConflict (key : String)
  | unmatched (key : String) (startCount endCount : Nat)
deriving DecidableEq

/-- The exact message strings of the thrown `Error`s. -/
def RewriteError.message : RewriteError → String
  | .markersUndefined => "[rewrite.md] startMarker and endMarker must be defined."
  | .keyConflict k => "[rewrite.md] Data key `" ++ k ++ "` conflicts with marker name."
  | .unmatched k sc ec =>
      "[rewrite.md] Unmatched markers for key " ++ k ++ ": start=" ++
        toString sc ++ ", end=" ++ toString ec

/-- Global single-character replacement, one `.replace(/c/g, r)` step. -/
def replaceCharWith (c : Char) (r : String) (s : String) : String :=
  String.mk (s.data.flatMap (fun a => if a = c then r.data else [a]))

/-- The source's `escapeHtml`: the five sequential global replacements,
ampersand first. -/
def escapeHtml (u : String) : String :=
  replaceCharWith '\'' "&#039;"
    (replaceCharWith '"' "&quot;"
      (replaceCharWith '>' "&gt;"
        (replaceCharWith '<' "&lt;"
          (replaceCharWith '&' "&amp;" u))))

/-- The source's `startReg` pattern string. -/
def startPattern (key sm : String) : String :=
  "<!--\\s*" ++ escReg key ++ ":" ++ escReg sm ++ "\\s*-->"

/-- The source's `endReg` pattern string. -/
def endPattern (key em : String) : String :=
  "<!--\\s*" ++ escReg key ++ ":" ++ escReg em ++ "\\s*-->"

/-- The source's `blockReg` pattern string. -/
def blockPattern (key sm em : String) : String :=
  "<!--\\s*" ++ escReg key ++ ":" ++ escReg sm ++ "\\s*-->[\\s\\S]*?<!--\\s*" ++
    escReg key ++ ":" ++ escReg em ++ "\\s*-->"

/-- Compiled atoms of a pattern (total: the source's patterns always lex). -/
def compiledAtoms (p : String) : List RAtom :=
  (lexAtoms p.data).getD []

/-- The rendered value: `allowRaw ? String(value) : escapeHtml(String(value))`. -/
def renderValue (allowRaw : Bool) (v : String) : String :=
  if allowRaw then v else escapeHtml v

/-- The replacement callback of the source's `replaceAll`:
first start-marker match of the block, newline, rendered value, newline,
first end-marker match of the block. -/
def blockReplacement (startAs endAs : List RAtom) (ins : List Char)
    (m : List Char) : List Char :=
  (firstMatchStr startAs m).getD [] ++ '\n' :: ins ++
    '\n' :: (firstMatchStr endAs m).getD []

/-- One iteration of the source's `for (const key in data)` loop:
reserved-name check, null/undefined skip, marker counting, substitution. -/
def processKey (sm em : String) (allowRaw : Bool) (content : List Char)
    (key : String) (v : Option String) : Except RewriteError (List Char) :=
  if key = sm ∨ key = em then .error (.keyConflict key)
  else
    match v with
    | none => .ok content
    | some v =>
      let startAs := compiledAtoms (startPattern key sm)
      let endAs := compiledAtoms (endPattern key em)
      let blockAs := compiledAtoms (blockPattern key sm em)
      let startCount := scanCount startAs content
      let endCount := scanCount endAs content
      if startCount ≠ endCount then
        .error (.unmatched key startCount endCount)
      else
        .ok (replaceAll blockAs
          (blockReplacement startAs endAs (renderValue allowRaw v).data) content)

/-- The whole key loop over the mapping's entries. -/
def processEntries (sm em : String) (allowRaw : Bool)
    (entries : List (String × Option String)) (content : List Char) :
    Except RewriteError (List Char) :=
  entries.foldlM (fun c kv => processKey sm em allowRaw c kv.1 kv.2) content

/-- The source's `Buffer.isBuffer(input)`. -/
def JsDoc.isBuffer : JsDoc → Bool
  | .buf _ => true
  | _ => false

/-- The source's `toString` helper: decode a `Buffer`, pass anything else
through unchanged (including `null`/`undefined`). -/
def toStr : JsDoc → JsDoc
  | .buf b => .str b
  | d => d

/-- JavaScript truthiness test `!content` on the decoded content. -/
def contentFalsy : JsDoc → Bool
  | .str s => s = ""
  | .nullv => true
  | .undefv => true
  | .buf _ => false

/-- The source's `returnThis` helper: re-encode to a `Buffer` exactly when
`preserveType` is set and the input was a `Buffer`. -/
def returnThis (preserveType isBuffer : Bool) : JsDoc → JsDoc
  | .str s => if preserveType && isBuffer then .buf s else .str s
  | d => d

/-- The source's plain-object test
`Object.prototype.toString.call(data) === "[object Object]"`. -/
def isPlainObject : JsData → Bool
  | .obj _ => true
  | .notObj => false

/-- The engine `rewriteMdComment`, translated statement-by-statement from
the source (the source's locals `isBuffer` and `content` are inlined as
`input.isBuffer` and `toStr input`): decode, pass through falsy content or
a non-object mapping, validate the marker roles, then run the key loop and
re-encode. -/
def rewriteMdComment (input : JsDoc) (data : JsData) (opts : Options) :
    Except RewriteError JsDoc :=
  if contentFalsy (toStr input) || !(isPlainObject data) then
    .ok (returnThis opts.preserveType input.isBuffer (toStr input))
  else if opts.startMarker = "" ∨ opts.endMarker = "" then
    .error .markersUndefined
  else
    match toStr input with
    | .str s =>
      match data with
      | .obj entries =>
        (processEntries opts.startMarker opts.endMarker opts.allowRaw
            entries s.data).map
          (fun cs => returnThis opts.preserveType input.isBuffer (.str (String.mk cs)))
      | .notObj => .ok (returnThis opts.preserveType input.isBuffer (toStr input))
    | _ => .ok (returnThis opts.preserveType input.isBuffer (toStr input))

end RewriteMd

deriving instance DecidableEq for Except

namespace RewriteMd

/-- The concrete scenario of the spec evaluates as documented. -/
example :
    rewriteMdComment (.str "<!-- version:start -->0.0.0<!-- version:end -->")
      (.obj [("version", some "1.2.3")]) defaultOptions =
    .ok (.str "<!-- version:start -->\n1.2.3\n<!-- version:end -->") := by
  decide

/-! ## Basic facts about the key loop -/

theorem processEntries_nil (sm em : String) (ar : Bool) (c : List Char) :
    processEntries sm em ar [] c = .ok c := rfl

theorem processEntries_cons (sm em : String) (ar : Bool) (kv : String × Option String)
    (es : List (String × Option String)) (c : List Char) :
    processEntries sm em ar (kv :: es) c =
      processKey sm em ar c kv.1 kv.2 >>= processEntries sm em ar es := by
  simp [processEntries, List.foldlM_cons]
  rfl

theorem processEntries_append (sm em : String) (ar : Bool)
    (es1 es2 : List (String × Option String)) (c : List Char) :
    processEntries sm em ar (es1 ++ es2) c =
      processEntries sm em ar es1 c >>= processEntries sm em ar es2 := by
  simp [processEntries, List.foldlM_append]
  rfl

/-- Every successful call returns a `returnThis`-wrapped document: either the
pass-through of the decoded input, or some rewritten text. -/
theorem rewrite_ok_shape (input : JsDoc) (data : JsData) (opts : Options) (out : JsDoc)
    (h : rewriteMdComment input data opts = .ok out) :
    out = returnThis opts.preserveType input.isBuffer (toStr input) ∨
      ∃ s : String, out = returnThis opts.preserveType input.isBuffer (.str s) := by
  unfold rewriteMdComment at h
  split at h
  · exact Or.inl (Except.ok.inj h).symm
  · split at h
    · exact absurd h (by simp)
    · split at h
      next s hs =>
        split at h
        next entries he =>
          rcases hfold : processEntries opts.startMarker opts.endMarker opts.allowRaw
              entries s.data with e | cs
          · rw [hfold] at h
            exact absurd h (by simp [Except.map])
          · rw [hfold] at h
            simp [Except.map] at h
            exact Or.inr ⟨String.mk cs, h.symm⟩
        next => exact Or.inl (Except.ok.inj h).symm
      next => exact Or.inl (Except.ok.inj h).symm

/-! ## C7: representation of the result -/

/-- Byte-oriented input with `preserveType = true` yields a byte-oriented
result; with the option `false`, or with textual input, the result is a
string. -/
theorem resultRepresentation (input : JsDoc) (data : JsData) (opts : Options) (out : JsDoc)
    (h : rewriteMdComment input data opts = .ok out) :
    (input.isBuffer = true → opts.preserveType = true → ∃ bb, out = .buf bb) ∧
    (input.isBuffer = true → opts.preserveType = false → ∃ ss, out = .str ss) ∧
    (∀ s0, input = .str s0 → ∃ ss, out = .str ss) := by
  have hs := rewrite_ok_shape input data opts out h
  refine ⟨?_, ?_, ?_⟩
  · intro hb hp
    cases input <;> simp [JsDoc.isBuffer] at hb
    rcases hs with hs | ⟨s, hs⟩ <;>
      exact ⟨_, by simpa [toStr, returnThis, JsDoc.isBuffer, hp] using hs⟩
  · intro hb hp
    cases input <;> simp [JsDoc.isBuffer] at hb
    rcases hs with hs | ⟨s, hs⟩ <;>
      exact ⟨_, by simpa [toStr, returnThis, JsDoc.isBuffer, hp] using hs⟩
  · intro s0 hinput
    subst hinput
    rcases hs with hs | ⟨s, hs⟩ <;>
      exact ⟨_, by simpa [toStr, returnThis, JsDoc.isBuffer] using hs⟩

theorem resultRepresentation_w :
    rewriteMdComment (.buf "A") (.obj []) ⟨true, "start", "end", false⟩ = .ok (.buf "A") ∧
      (∃ bb, JsDoc.buf "A" = .buf bb) :=
  ⟨by decide,
   (resultRepresentation (.buf "A") (.obj []) ⟨true, "start", "end", false⟩ (.buf "A")
      (by decide)).1 rfl rfl⟩

/-! ## C10: the pass-through still decodes a Buffer to text -/

/-- On the pass-through branch (non-object `data`), a Buffer input without
`preserveType` comes back as the decoded string, not as a Buffer. -/
theorem passThroughBufferDecodesToText (b : String) (data : JsData) (opts : Options)
    (hd : data = .notObj) (hp : opts.preserveType = false) :
    rewriteMdComment (.buf b) data opts = .ok (.str b) := by
  subst hd
  unfold rewriteMdComment
  simp [toStr, JsDoc.isBuffer, isPlainObject, returnThis, hp]

theorem passThroughBufferDecodesToText_w :
    rewriteMdComment (.buf "## A") .notObj defaultOptions = .ok (.str "## A") :=
  passThroughBufferDecodesToText "## A" .notObj defaultOptions rfl rfl

/-! ## C6: pass-through on falsy content or non-object mapping -/

/-- CLAIM C6 counterexample: on a non-empty Buffer with a non-object mapping
the call does not return the input unchanged — it returns the decoded
string. -/
theorem passThroughNotObj_counter :
    rewriteMdComment (.buf "## API") .notObj defaultOptions = .ok (.str "## API") ∧
      JsDoc.str "## API" ≠ JsDoc.buf "## API" := by
  exact ⟨by decide, by decide⟩

/-- Amended C6: with falsy content or a non-object mapping the call performs
no marker processing and raises no error; string, `null` and `undefined`
inputs come back as the very value passed, while a Buffer input comes back
as its decoded text unless `preserveType` re-encodes it. -/
theorem passThroughUnchangedContent (input : JsDoc) (data : JsData) (opts : Options)
    (h : contentFalsy (toStr input) = true ∨ data = .notObj) :
    rewriteMdComment input data opts =
      .ok (returnThis opts.preserveType input.isBuffer (toStr input)) ∧
    (∀ s, input = .str s → rewriteMdComment input data opts = .ok (.str s)) ∧
    (input = .nullv → rewriteMdComment input data opts = .ok .nullv) ∧
    (input = .undefv → rewriteMdComment input data opts = .ok .undefv) ∧
    (∀ b, input = .buf b → rewriteMdComment input data opts =
      .ok (if opts.preserveType then .buf b else .str b)) := by
  have hmain : rewriteMdComment input data opts =
      .ok (returnThis opts.preserveType input.isBuffer (toStr input)) := by
    unfold rewriteMdComment
    rcases h with h | h
    · simp [h]
    · subst h
      simp [isPlainObject]
  refine ⟨hmain, ?_, ?_, ?_, ?_⟩
  · intro s hi; subst hi
    simpa [toStr, returnThis, JsDoc.isBuffer] using hmain
  · intro hi; subst hi
    simpa [toStr, returnThis, JsDoc.isBuffer] using hmain
  · intro hi; subst hi
    simpa [toStr, returnThis, JsDoc.isBuffer] using hmain
  · intro b hi; subst hi
    cases hp : opts.preserveType <;>
      simpa [toStr, returnThis, JsDoc.isBuffer, hp] using hmain

theorem passThroughUnchangedContent_w :
    rewriteMdComment .nullv .notObj defaultOptions = .ok .nullv :=
  (passThroughUnchangedContent .nullv .notObj defaultOptions (Or.inr rfl)).2.2.1 rfl

/-! ## C5: empty role tokens -/

/-- CLAIM C5 counterexample: with an empty `startMarker` but an empty (falsy)
document, the call returns the input unchanged instead of raising the
configuration error — the pass-through precedes the marker validation. -/
theorem emptyMarker_counter :
    rewriteMdComment (.str "") (.obj []) ⟨false, "", "end", false⟩ = .ok (.str "") := by
  decide

/-- Amended C5: the configuration error for an empty role token is raised
whenever the document is truthy and the mapping is a plain object (the
pass-through for falsy/non-object input happens first). -/
theorem emptyMarkerConfigError (input : JsDoc) (data : JsData) (opts : Options)
    (h1 : contentFalsy (toStr input) = false) (h2 : isPlainObject data = true)
    (h3 : opts.startMarker = "" ∨ opts.endMarker = "") :
    rewriteMdComment input data opts = .error .markersUndefined := by
  unfold rewriteMdComment
  simp [h1, h2, h3]

theorem emptyMarkerConfigError_w :
    rewriteMdComment (.str "abc") (.obj []) ⟨false, "start", "", false⟩ =
      .error .markersUndefined :=
  emptyMarkerConfigError (.str "abc") (.obj []) ⟨false, "start", "", false⟩
    (by decide) (by decide) (Or.inr rfl)

/-! ## C4: null skip versus reserved-name check -/

/-- CLAIM C4 counterexample: an entry with a null value whose key equals the
start role is not skipped — the reserved-name check runs first and throws. -/
theorem reservedNullKey_counter :
    rewriteMdComment (.str "Hi") (.obj [("start", none)]) defaultOptions =
      .error (.keyConflict "start") := by
  decide

/-- Amended C4: an entry with a null/undefined value is skipped entirely
(removing it from the mapping does not change the result) provided its key
is not a role name; when its key equals a role name the reserved-name
check, which precedes the null skip, raises the conflict error. -/
theorem nullSkipUnlessReserved :
    (∀ (input : JsDoc) (es1 es2 : List (String × Option String)) (k : String)
      (opts : Options), k ≠ opts.startMarker → k ≠ opts.endMarker →
      rewriteMdComment input (.obj (es1 ++ (k, none) :: es2)) opts =
        rewriteMdComment input (.obj (es1 ++ es2)) opts) ∧
    (∀ (s : String) (es2 : List (String × Option String)) (k : String) (opts : Options),
      s ≠ "" → opts.startMarker ≠ "" → opts.endMarker ≠ "" →
      (k = opts.startMarker ∨ k = opts.endMarker) →
      rewriteMdComment (.str s) (.obj ((k, none) :: es2)) opts =
        .error (.keyConflict k)) := by
  constructor
  · intro input es1 es2 k opts hk1 hk2
    have hstep : ∀ c : List Char,
        processEntries opts.startMarker opts.endMarker opts.allowRaw
            (es1 ++ (k, none) :: es2) c =
          processEntries opts.startMarker opts.endMarker opts.allowRaw
            (es1 ++ es2) c := by
      intro c
      rw [processEntries_append, processEntries_append]
      rcases processEntries opts.startMarker opts.endMarker opts.allowRaw es1 c with
        e | c1
      · rfl
      · show processEntries _ _ _ ((k, none) :: es2) c1 = _
        rw [processEntries_cons]
        simp [processKey, hk1, hk2]
    unfold rewriteMdComment
    simp only [isPlainObject, Bool.not_true, Bool.or_false]
    by_cases hc : contentFalsy (toStr input) = true
    · rw [if_pos hc, if_pos hc]
    · rw [if_neg hc, if_neg hc]
      by_cases hm : opts.startMarker = "" ∨ opts.endMarker = ""
      · rw [if_pos hm, if_pos hm]
      · rw [if_neg hm, if_neg hm]
        cases toStr input with
        | str s => simp only [hstep]
        | buf b => rfl
        | nullv => rfl
        | undefv => rfl
  · intro s es2 k opts hs hsm hem hk
    unfold rewriteMdComment
    have h1 : contentFalsy (toStr (.str s)) = false := by
      simpa [toStr, contentFalsy] using hs
    have h2 : ¬(opts.startMarker = "" ∨ opts.endMarker = "") := by
      rintro (h | h) <;> simp_all
    simp only [toStr] at h1 ⊢
    rw [if_neg (by simp [h1, isPlainObject]), if_neg h2]
    rw [processEntries_cons]
    simp [processKey, hk, Except.map, Bind.bind, Except.bind]

theorem nullSkipUnlessReserved_w :
    (rewriteMdComment (.str "<!-- a:start -->x<!-- a:end -->") (.obj [("a", none)])
        defaultOptions =
      rewriteMdComment (.str "<!-- a:start -->x<!-- a:end -->") (.obj []) defaultOptions) ∧
    rewriteMdComment (.str "Hi") (.obj [("end", none)]) defaultOptions =
      .error (.keyConflict "end") :=
  ⟨nullSkipUnlessReserved.1 (.str "<!-- a:start -->x<!-- a:end -->") [] [] "a"
      defaultOptions (by decide) (by decide),
   nullSkipUnlessReserved.2 "Hi" [] "end" defaultOptions (by decide) (by decide)
      (by decide) (Or.inr rfl)⟩

/-! ## Compiling the source's pattern strings -/

/-- Atoms matching a literal character sequence. -/
def litAtoms (t : List Char) : List RAtom := t.map (fun c => .once (.lit c))

/-- The `key:role` token characters of a marker. -/
def tokChars (k r : String) : List Char := k.data ++ ':' :: r.data

/-- The compiled form of the source's marker pattern
`<!--` `\s*` token `\s*` `-->` for a literal token `t`. -/
def markerAtoms (t : List Char) : List RAtom :=
  .once (.lit '<') :: .once (.lit '!') :: .once (.lit '-') :: .once (.lit '-') ::
    .star .wsC :: (litAtoms t ++ .star .wsC :: .once (.lit '-') :: .once (.lit '-') ::
      [.once (.lit '>')])

/-- Character-level form of `escReg`. -/
def escChars (l : List Char) : List Char :=
  l.flatMap (fun c => if regexSpecial c then ['\\', c] else [c])

theorem escReg_data (v : String) : (escReg v).data = escChars v.data := rfl

theorem escChars_cons (c : Char) (l : List Char) :
    escChars (c :: l) = (if regexSpecial c then ['\\', c] else [c]) ++ escChars l := by
  simp [escChars]

theorem escChars_append_head_ne (l r : List Char) (c : Char)
    (hc : regexSpecial c = true) (hbs : c ≠ '\\') (h : r.head? ≠ some c) :
    (escChars l ++ r).head? ≠ some c := by
  cases l with
  | nil => simpa [escChars] using h
  | cons d l2 =>
    by_cases hd : regexSpecial d
    · simp only [escChars, List.flatMap_cons, if_pos hd]
      simp [hbs.symm]
    · simp only [escChars, List.flatMap_cons, if_neg hd]
      simp only [List.cons_append, List.head?_cons, ne_eq, Option.some.injEq]
      intro hh
      rw [hh] at hd
      simp [hc] at hd

theorem lexGo_cons_some (st : LexSt) (c : Char) (r : List Char) (out : List RAtom)
    (st2 : LexSt) (h : lexStep st c = some (out, st2)) :
    lexGo st (c :: r) = (lexGo st2 r).map (out ++ ·) := by
  simp [lexGo, h]

theorem lexGo_afterCls (cl : RCls) (s : List Char) (h : s.head? ≠ some '*') :
    lexGo (.afterCls cl) s = (lexGo .idle s).map (.once cl :: ·) := by
  cases s with
  | nil => rfl
  | cons c r =>
    have hc : c ≠ '*' := by
      intro hh
      exact h (by simp [hh])
    simp only [lexGo, lexStep, if_neg hc]
    by_cases h1 : c = '\\'
    · simp [h1]
    · by_cases h2 : c = '['
      · simp [h1, h2]
      · by_cases h3 : regexSpecial c
        · simp [h1, h2, h3]
        · simp [h1, h2, h3, Option.map_map]

theorem lexGo_afterStar (cl : RCls) (s : List Char) (h : s.head? ≠ some '?') :
    lexGo (.afterStar cl) s = (lexGo .idle s).map (.star cl :: ·) := by
  cases s with
  | nil => rfl
  | cons c r =>
    have hc : c ≠ '?' := by
      intro hh
      exact h (by simp [hh])
    simp only [lexGo, lexStep, if_neg hc]
    by_cases h1 : c = '\\'
    · simp [h1]
    · by_cases h2 : c = '['
      · simp [h1, h2]
      · by_cases h3 : regexSpecial c
        · simp [h1, h2, h3]
        · simp [h1, h2, h3, Option.map_map]

theorem lexGo_escaped (l : List Char) (r : List Char) (h : r.head? ≠ some '*') :
    lexGo .idle (escChars l ++ r) = (lexGo .idle r).map (litAtoms l ++ ·) := by
  induction l with
  | nil =>
    show lexGo .idle r = _
    simp [litAtoms]
  | cons c l2 ih =>
    have hstar : (escChars l2 ++ r).head? ≠ some '*' :=
      escChars_append_head_ne l2 r '*' (by decide) (by decide) h
    by_cases hc : regexSpecial c
    · have hcs : c ≠ 's' := by
        intro hh
        rw [hh] at hc
        simp [regexSpecial] at hc
      have hstep : lexStep .afterBs c = some ([], .afterCls (.lit c)) := by
        simp [lexStep, hc, escCls, hcs]
      rw [escChars_cons, if_pos hc]
      show lexGo .idle ('\\' :: c :: (escChars l2 ++ r)) = _
      rw [lexGo_cons_some .idle '\\' _ [] .afterBs (by decide)]
      rw [lexGo_cons_some .afterBs c _ [] (.afterCls (.lit c)) hstep]
      rw [lexGo_afterCls (.lit c) _ hstar]
      show Option.map _ (Option.map _ (Option.map _ (lexGo .idle (escChars l2 ++ r)))) = _
      rw [ih]
      simp [litAtoms, Option.map_map]
      try rfl
    · have hc1 : c ≠ '\\' := by
        intro hh
        rw [hh] at hc
        simp [regexSpecial] at hc
      have hc2 : c ≠ '[' := by
        intro hh
        rw [hh] at hc
        simp [regexSpecial] at hc
      have hstep : lexStep .idle c = some ([], .afterCls (.lit c)) := by
        simp [lexStep, hc1, hc2, hc]
      rw [escChars_cons, if_neg hc]
      show lexGo .idle (c :: (escChars l2 ++ r)) = _
      rw [lexGo_cons_some .idle c _ [] (.afterCls (.lit c)) hstep]
      rw [lexGo_afterCls (.lit c) _ hstar]
      show Option.map _ (Option.map _ (lexGo .idle (escChars l2 ++ r))) = _
      rw [ih]
      simp [litAtoms, Option.map_map]
      try rfl

/-- Characters of a marker pattern for token `t`, followed by `rest`. -/
def markerPatChars (t rest : List Char) : List Char :=
  '<' :: '!' :: '-' :: '-' :: '\\' :: 's' :: '*' ::
    (escChars t ++ '\\' :: 's' :: '*' :: '-' :: '-' :: '>' :: rest)

theorem lexGo_markerPat (t rest : List Char) (hstar : rest.head? ≠ some '*') :
    lexGo .idle (markerPatChars t rest) =
      (lexGo .idle rest).map (markerAtoms t ++ ·) := by
  have h1 : (escChars t ++ '\\' :: 's' :: '*' :: '-' :: '-' :: '>' :: rest).head? ≠
      some '?' :=
    escChars_append_head_ne _ _ '?' (by decide) (by decide) (by simp)
  show lexGo .idle ('<' :: '!' :: '-' :: '-' :: '\\' :: 's' :: '*' :: _) = _
  rw [lexGo_cons_some .idle '<' _ [] (.afterCls (.lit '<')) (by decide)]
  rw [lexGo_cons_some (.afterCls (.lit '<')) '!' _ [.once (.lit '<')]
    (.afterCls (.lit '!')) (by decide)]
  rw [lexGo_cons_some (.afterCls (.lit '!')) '-' _ [.once (.lit '!')]
    (.afterCls (.lit '-')) (by decide)]
  rw [lexGo_cons_some (.afterCls (.lit '-')) '-' _ [.once (.lit '-')]
    (.afterCls (.lit '-')) (by decide)]
  rw [lexGo_cons_some (.afterCls (.lit '-')) '\\' _ [.once (.lit '-')]
    .afterBs (by decide)]
  rw [lexGo_cons_some .afterBs 's' _ [] (.afterCls .wsC) (by decide)]
  rw [lexGo_cons_some (.afterCls .wsC) '*' _ [] (.afterStar .wsC) (by decide)]
  rw [lexGo_afterStar .wsC _ h1]
  rw [lexGo_escaped t _ (by simp)]
  rw [lexGo_cons_some .idle '\\' _ [] .afterBs (by decide)]
  rw [lexGo_cons_some .afterBs 's' _ [] (.afterCls .wsC) (by decide)]
  rw [lexGo_cons_some (.afterCls .wsC) '*' _ [] (.afterStar .wsC) (by decide)]
  rw [lexGo_afterStar .wsC _ (by simp)]
  rw [lexGo_cons_some .idle '-' _ [] (.afterCls (.lit '-')) (by decide)]
  rw [lexGo_cons_some (.afterCls (.lit '-')) '-' _ [.once (.lit '-')]
    (.afterCls (.lit '-')) (by decide)]
  rw [lexGo_cons_some (.afterCls (.lit '-')) '>' _ [.once (.lit '-')]
    (.afterCls (.lit '>')) (by decide)]
  rw [lexGo_afterCls (.lit '>') rest hstar]
  simp only [Option.map_map]
  simp [markerAtoms, litAtoms, Function.comp]
  try rfl

/-- The compiled block pattern: start marker, lazy any-run, end marker. -/
def blockAtoms (t1 t2 : List Char) : List RAtom :=
  markerAtoms t1 ++ .lazyStar .anyC :: markerAtoms t2

theorem escChars_append (a b : List Char) :
    escChars (a ++ b) = escChars a ++ escChars b := by
  simp [escChars]

theorem escChars_colon (l : List Char) :
    escChars (':' :: l) = ':' :: escChars l := by
  rw [escChars_cons, if_neg (by decide)]
  rfl

theorem startPattern_chars (k sm : String) :
    (startPattern k sm).data = markerPatChars (tokChars k sm) [] := by
  have h1 : ("<!--\\s*" : String).data = ['<', '!', '-', '-', '\\', 's', '*'] := rfl
  have h2 : (":" : String).data = [':'] := rfl
  have h3 : ("\\s*-->" : String).data = ['\\', 's', '*', '-', '-', '>'] := rfl
  simp only [startPattern, String.data_append, escReg_data, h1, h2, h3,
    markerPatChars, tokChars, escChars_append, escChars_colon]
  simp [List.append_assoc]

theorem endPattern_chars (k em : String) :
    (endPattern k em).data = markerPatChars (tokChars k em) [] := by
  have h1 : ("<!--\\s*" : String).data = ['<', '!', '-', '-', '\\', 's', '*'] := rfl
  have h2 : (":" : String).data = [':'] := rfl
  have h3 : ("\\s*-->" : String).data = ['\\', 's', '*', '-', '-', '>'] := rfl
  simp only [endPattern, String.data_append, escReg_data, h1, h2, h3,
    markerPatChars, tokChars, escChars_append, escChars_colon]
  simp [List.append_assoc]

theorem blockPattern_chars (k sm em : String) :
    (blockPattern k sm em).data =
      markerPatChars (tokChars k sm)
        ('[' :: '\\' :: 's' :: '\\' :: 'S' :: ']' :: '*' :: '?' ::
          markerPatChars (tokChars k em) []) := by
  have h1 : ("<!--\\s*" : String).data = ['<', '!', '-', '-', '\\', 's', '*'] := rfl
  have h2 : (":" : String).data = [':'] := rfl
  have h3 : ("\\s*-->[\\s\\S]*?<!--\\s*" : String).data =
    ['\\', 's', '*', '-', '-', '>', '[', '\\', 's', '\\', 'S', ']', '*', '?',
     '<', '!', '-', '-', '\\', 's', '*'] := rfl
  have h4 : ("\\s*-->" : String).data = ['\\', 's', '*', '-', '-', '>'] := rfl
  simp only [blockPattern, String.data_append, escReg_data, h1, h2, h3, h4,
    markerPatChars, tokChars, escChars_append, escChars_colon]
  simp [List.append_assoc]

theorem lexGo_anyLazy (X : List Char) :
    lexGo .idle ('[' :: '\\' :: 's' :: '\\' :: 'S' :: ']' :: '*' :: '?' :: X) =
      (lexGo .idle X).map (.lazyStar .anyC :: ·) := by
  rw [lexGo_cons_some .idle '[' _ [] .br0 (by decide)]
  rw [lexGo_cons_some .br0 '\\' _ [] .br1 (by decide)]
  rw [lexGo_cons_some .br1 's' _ [] .br2 (by decide)]
  rw [lexGo_cons_some .br2 '\\' _ [] .br3 (by decide)]
  rw [lexGo_cons_some .br3 'S' _ [] .br4 (by decide)]
  rw [lexGo_cons_some .br4 ']' _ [] (.afterCls .anyC) (by decide)]
  rw [lexGo_cons_some (.afterCls .anyC) '*' _ [] (.afterStar .anyC) (by decide)]
  rw [lexGo_cons_some (.afterStar .anyC) '?' _ [.lazyStar .anyC] .idle (by decide)]
  simp [Option.map_map]
  try rfl

theorem lexAtoms_startPattern (k sm : String) :
    lexAtoms (startPattern k sm).data = some (markerAtoms (tokChars k sm)) := by
  unfold lexAtoms
  rw [startPattern_chars, lexGo_markerPat _ _ (by simp)]
  show Option.map _ (lexFin .idle) = _
  simp [lexFin]

theorem lexAtoms_endPattern (k em : String) :
    lexAtoms (endPattern k em).data = some (markerAtoms (tokChars k em)) := by
  unfold lexAtoms
  rw [endPattern_chars, lexGo_markerPat _ _ (by simp)]
  show Option.map _ (lexFin .idle) = _
  simp [lexFin]

theorem lexAtoms_blockPattern (k sm em : String) :
    lexAtoms (blockPattern k sm em).data =
      some (blockAtoms (tokChars k sm) (tokChars k em)) := by
  unfold lexAtoms
  rw [blockPattern_chars, lexGo_markerPat _ _ (by simp), lexGo_anyLazy,
    lexGo_markerPat _ _ (by simp)]
  show Option.map _ (Option.map _ (Option.map _ (lexFin .idle))) = _
  simp [lexFin, blockAtoms]

theorem compiledAtoms_startPattern (k sm : String) :
    compiledAtoms (startPattern k sm) = markerAtoms (tokChars k sm) := by
  simp [compiledAtoms, lexAtoms_startPattern]

theorem compiledAtoms_endPattern (k em : String) :
    compiledAtoms (endPattern k em) = markerAtoms (tokChars k em) := by
  simp [compiledAtoms, lexAtoms_endPattern]

theorem compiledAtoms_blockPattern (k sm em : String) :
    compiledAtoms (blockPattern k sm em) =
      blockAtoms (tokChars k sm) (tokChars k em) := by
  simp [compiledAtoms, lexAtoms_blockPattern]

/-! ## Semantics of atom sequences -/

theorem runLen_le (c : RCls) (s : List Char) : runLen c s ≤ s.length := by
  induction s with
  | nil => simp [runLen]
  | cons x xs ih =>
    simp only [runLen]
    split
    · simpa using ih
    · simp

theorem runLen_take_all (c : RCls) (s : List Char) (k : Nat) (hk : k ≤ runLen c s) :
    ∀ x ∈ s.take k, c.check x = true := by
  induction s generalizing k with
  | nil => simp
  | cons y ys ih =>
    cases k with
    | zero => simp
    | succ k2 =>
      simp only [runLen] at hk
      split at hk
      next hy =>
        intro x hx
        simp only [List.take_succ_cons, List.mem_cons] at hx
        rcases hx with rfl | hx
        · exact hy
        · exact ih k2 (by omega) x hx
      next => omega

theorem runLen_ge_of_all (c : RCls) (w rest : List Char)
    (h : ∀ x ∈ w, c.check x = true) : w.length ≤ runLen c (w ++ rest) := by
  induction w with
  | nil => simp
  | cons y ys ih =>
    simp only [List.cons_append, runLen, if_pos (h y (by simp))]
    have := ih (fun x hx => h x (by simp [hx]))
    simpa using this

theorem mem_seqLens_le (as : List RAtom) :
    ∀ (s : List Char) (n : Nat), n ∈ seqLens as s → n ≤ s.length := by
  induction as with
  | nil =>
    intro s n h
    simp [seqLens] at h
    omega
  | cons a as ih =>
    intro s n h
    cases a with
    | once c =>
      cases s with
      | nil => simp [seqLens] at h
      | cons x xs =>
        simp only [seqLens] at h
        split at h
        · simp only [List.mem_map] at h
          obtain ⟨m, hm, rfl⟩ := h
          have := ih xs m hm
          simp
          omega
        · simp at h
    | star c =>
      simp only [seqLens, List.mem_flatMap, List.mem_reverse, List.mem_range,
        List.mem_map] at h
      obtain ⟨k, hk, m, hm, rfl⟩ := h
      have h1 := ih _ m hm
      have h2 := runLen_le c s
      simp at h1
      omega
    | lazyStar c =>
      simp only [seqLens, List.mem_flatMap, List.mem_range, List.mem_map] at h
      obtain ⟨k, hk, m, hm, rfl⟩ := h
      have h1 := ih _ m hm
      have h2 := runLen_le c s
      simp at h1
      omega

theorem seqLens_star_mem (c : RCls) (as : List RAtom) (s : List Char) (n : Nat) :
    n ∈ seqLens (.star c :: as) s ↔
      ∃ k, k ≤ runLen c s ∧ ∃ m, m ∈ seqLens as (s.drop k) ∧ n = m + k := by
  simp only [seqLens, List.mem_flatMap, List.mem_reverse, List.mem_range,
    List.mem_map, Nat.lt_succ_iff]
  constructor
  · rintro ⟨k, hk, m, hm, rfl⟩
    exact ⟨k, hk, m, hm, rfl⟩
  · rintro ⟨k, hk, m, hm, rfl⟩
    exact ⟨k, hk, m, hm, rfl⟩

theorem seqLens_lazyStar_mem (c : RCls) (as : List RAtom) (s : List Char) (n : Nat) :
    n ∈ seqLens (.lazyStar c :: as) s ↔
      ∃ k, k ≤ runLen c s ∧ ∃ m, m ∈ seqLens as (s.drop k) ∧ n = m + k := by
  simp only [seqLens, List.mem_flatMap, List.mem_range, List.mem_map,
    Nat.lt_succ_iff]
  constructor
  · rintro ⟨k, hk, m, hm, rfl⟩
    exact ⟨k, hk, m, hm, rfl⟩
  · rintro ⟨k, hk, m, hm, rfl⟩
    exact ⟨k, hk, m, hm, rfl⟩

theorem seqLens_litAtoms_append (t : List Char) (as : List RAtom) :
    ∀ s : List Char, seqLens (litAtoms t ++ as) s =
      if s.take t.length = t then (seqLens as (s.drop t.length)).map (· + t.length)
      else [] := by
  induction t with
  | nil =>
    intro s
    simp [litAtoms]
  | cons c t2 ih =>
    intro s
    cases s with
    | nil =>
      have : ¬(([] : List Char).take (c :: t2).length = c :: t2) := by simp
      rw [if_neg this]
      simp [litAtoms, seqLens]
    | cons x xs =>
      show seqLens (.once (.lit c) :: (litAtoms t2 ++ as)) (x :: xs) = _
      simp only [seqLens]
      by_cases hx : c = x
      · subst hx
        rw [if_pos (by simp [RCls.check])]
        rw [ih xs]
        by_cases ht : xs.take t2.length = t2
        · rw [if_pos ht, if_pos (by simp [ht])]
          simp only [List.map_map, List.length_cons, List.drop_succ_cons]
          have hfun : ((fun x => x + 1) ∘ fun x => x + t2.length) =
              (fun x : Nat => x + (t2.length + 1)) := by
            funext m
            simp [Nat.add_assoc]
          rw [hfun]
        · rw [if_neg ht, if_neg (by simp [ht])]
          simp
      · have hcheck : ((RCls.lit c).check x) = false := by
          simp only [RCls.check]
          exact decide_eq_false hx
        rw [hcheck]
        have hne : ¬((x :: xs).take (c :: t2).length = c :: t2) := by
          simp only [List.length_cons, List.take_succ_cons]
          intro hh
          injection hh with h1 h2
          exact hx h1.symm
        simp only [Bool.false_eq_true, if_false]
        rw [if_neg hne]

theorem seqLens_litAtoms (t : List Char) (s : List Char) :
    seqLens (litAtoms t) s = if s.take t.length = t then [t.length] else [] := by
  have h := seqLens_litAtoms_append t [] s
  rw [List.append_nil] at h
  rw [h]
  split
  · simp [seqLens]
  · rfl

theorem matchAt_isSome_iff (as : List RAtom) (s : List Char) :
    (matchAt as s).isSome = true ↔ ∃ n, n ∈ seqLens as s := by
  unfold matchAt
  cases h : seqLens as s with
  | nil => simp
  | cons a l =>
    simp only [List.head?_cons, Option.isSome_some, true_iff]
    exact ⟨a, by simp⟩

theorem markerAtoms_decomp (t : List Char) :
    markerAtoms t = litAtoms ['<', '!', '-', '-'] ++ .star .wsC ::
      (litAtoms t ++ .star .wsC :: litAtoms ['-', '-', '>']) := rfl

/-- A marker pattern for token `t` matches at the head of `s` exactly when
`s` literally starts with `<!--`, optional whitespace, the token `t`,
optional whitespace, and `-->`. -/
theorem markerAtoms_match_iff (t : List Char) (s : List Char) :
    (matchAt (markerAtoms t) s).isSome = true ↔
      ∃ w1 w2 r : List Char,
        (∀ x ∈ w1, isJsWs x = true) ∧ (∀ x ∈ w2, isJsWs x = true) ∧
        s = '<' :: '!' :: '-' :: '-' ::
          (w1 ++ (t ++ (w2 ++ '-' :: '-' :: '>' :: r))) := by
  rw [matchAt_isSome_iff]
  constructor
  · rintro ⟨n, hn⟩
    rw [markerAtoms_decomp, seqLens_litAtoms_append] at hn
    split at hn
    case isFalse => simp at hn
    case isTrue hpre =>
    simp only [List.mem_map] at hn
    obtain ⟨m1, hm1, rfl⟩ := hn
    rw [seqLens_star_mem] at hm1
    obtain ⟨k, hk, m2, hm2, rfl⟩ := hm1
    rw [seqLens_litAtoms_append] at hm2
    split at hm2
    case isFalse => simp at hm2
    case isTrue htok =>
    simp only [List.mem_map] at hm2
    obtain ⟨m3, hm3, rfl⟩ := hm2
    rw [seqLens_star_mem] at hm3
    obtain ⟨k2, hk2, m4, hm4, rfl⟩ := hm3
    rw [seqLens_litAtoms] at hm4
    split at hm4
    case isFalse => simp at hm4
    case isTrue hclo =>
    have hlen4 : (['<', '!', '-', '-'] : List Char).length = 4 := rfl
    have hlen3 : (['-', '-', '>'] : List Char).length = 3 := rfl
    simp only [hlen4, hlen3] at hpre hk htok hk2 hclo hm4
    refine ⟨(s.drop 4).take k, (((s.drop 4).drop k).drop t.length).take k2,
      (((((s.drop 4).drop k).drop t.length).drop k2).drop 3), ?_, ?_, ?_⟩
    · intro x hx
      have := runLen_take_all .wsC (s.drop 4) k hk x hx
      simpa [RCls.check] using this
    · intro x hx
      have := runLen_take_all .wsC (((s.drop 4).drop k).drop t.length) k2 hk2 x hx
      simpa [RCls.check] using this
    · have e0 : s = s.take 4 ++ s.drop 4 := (List.take_append_drop 4 s).symm
      have e1 : s.drop 4 = (s.drop 4).take k ++ (s.drop 4).drop k :=
        (List.take_append_drop k (s.drop 4)).symm
      have e2 : (s.drop 4).drop k =
          t ++ ((s.drop 4).drop k).drop t.length := by
        conv_lhs => rw [← List.take_append_drop t.length ((s.drop 4).drop k)]
        rw [htok]
      have e3 : ((s.drop 4).drop k).drop t.length =
          (((s.drop 4).drop k).drop t.length).take k2 ++
            (((s.drop 4).drop k).drop t.length).drop k2 :=
        (List.take_append_drop k2 _).symm
      have e4 : (((s.drop 4).drop k).drop t.length).drop k2 =
          '-' :: '-' :: '>' ::
            ((((s.drop 4).drop k).drop t.length).drop k2).drop 3 := by
        conv_lhs => rw [← List.take_append_drop 3
          ((((s.drop 4).drop k).drop t.length).drop k2)]
        rw [hclo]
        rfl
      conv_lhs => rw [e0, hpre, e1, e2, e3, e4]
      simp [List.append_assoc]
  · rintro ⟨w1, w2, r, hw1, hw2, rfl⟩
    rw [markerAtoms_decomp]
    have hw1c : ∀ x ∈ w1, RCls.check .wsC x = true := by
      intro x hx
      simpa [RCls.check] using hw1 x hx
    have hw2c : ∀ x ∈ w2, RCls.check .wsC x = true := by
      intro x hx
      simpa [RCls.check] using hw2 x hx
    refine ⟨3 + w2.length + t.length + w1.length + 4, ?_⟩
    rw [seqLens_litAtoms_append]
    rw [if_pos (by simp)]
    simp only [List.mem_map]
    refine ⟨3 + w2.length + t.length + w1.length, ?_, by simp⟩
    have hdrop4 : ('<' :: '!' :: '-' :: '-' ::
        (w1 ++ (t ++ (w2 ++ '-' :: '-' :: '>' :: r)))).drop
          (['<', '!', '-', '-'] : List Char).length =
        w1 ++ (t ++ (w2 ++ '-' :: '-' :: '>' :: r)) := rfl
    rw [hdrop4, seqLens_star_mem]
    refine ⟨w1.length, runLen_ge_of_all .wsC w1 _ hw1c, 3 + w2.length + t.length,
      ?_, by omega⟩
    rw [List.drop_left, seqLens_litAtoms_append, if_pos (by rw [List.take_left])]
    simp only [List.mem_map]
    refine ⟨3 + w2.length, ?_, by omega⟩
    rw [List.drop_left, seqLens_star_mem]
    refine ⟨w2.length, runLen_ge_of_all .wsC w2 _ hw2c, 3, ?_, by omega⟩
    rw [List.drop_left, seqLens_litAtoms]
    simp

/-! ## C9: escaped keys and roles are matched literally -/

/-- Markers are located by literal textual match of the `key:role` token,
with tolerated whitespace inside the comment delimiters: the source's
pattern string, in which both the key and the role are escaped by
`escReg`, compiles to atoms that match the token character-for-character,
so regex-special characters in either are not pattern syntax. -/
theorem markersLocatedByLiteralMatch (k role : String) (s : List Char) :
    lexAtoms (startPattern k role).data = some (markerAtoms (tokChars k role)) ∧
    compiledAtoms (startPattern k role) = markerAtoms (tokChars k role) ∧
    ((matchAt (markerAtoms (tokChars k role)) s).isSome = true ↔
      ∃ w1 w2 r : List Char,
        (∀ x ∈ w1, isJsWs x = true) ∧ (∀ x ∈ w2, isJsWs x = true) ∧
        s = '<' :: '!' :: '-' :: '-' ::
          (w1 ++ (tokChars k role ++ (w2 ++ '-' :: '-' :: '>' :: r)))) :=
  ⟨lexAtoms_startPattern k role, compiledAtoms_startPattern k role,
   markerAtoms_match_iff (tokChars k role) s⟩

/-! ## Decomposing a scan into gaps and matches -/

/-- Prepend an unmatched character to a (gaps-and-matches, trailing-gap)
decomposition. -/
def consGap (c : Char) (p : List (List Char × List Char) × List Char) :
    List (List Char × List Char) × List Char :=
  match p with
  | ([], tl) => ([], c :: tl)
  | ((g, m) :: rest, tl) => ((c :: g, m) :: rest, tl)

/-- Fueled decomposition of `s` into the gap before each `g`-flag match,
the match itself, and the trailing gap; mirrors `replaceAllF` exactly. -/
def scanSplitF (as : List RAtom) : Nat → List Char →
    List (List Char × List Char) × List Char
  | 0, s => ([], s)
  | f + 1, s =>
    match matchAt as s with
    | none =>
      match s with
      | [] => ([], [])
      | c :: t => consGap c (scanSplitF as f t)
    | some n =>
      match s with
      | [] => ([([], [])], [])
      | c :: t =>
        if n = 0 then
          (([], []) :: (consGap c (scanSplitF as f t)).1,
            (consGap c (scanSplitF as f t)).2)
        else
          (([], s.take n) :: (scanSplitF as f (s.drop n)).1,
            (scanSplitF as f (s.drop n)).2)

/-- Decomposition of `s` into gaps and `g`-flag matches. -/
def scanSplit (as : List RAtom) (s : List Char) :
    List (List Char × List Char) × List Char :=
  scanSplitF as (s.length + 1) s

/-- Reassemble a decomposition, transforming each match with `g`. -/
def assemble (g : List Char → List Char)
    (p : List (List Char × List Char) × List Char) : List Char :=
  (p.1.flatMap (fun gm => gm.1 ++ g gm.2)) ++ p.2

theorem assemble_consGap (g : List Char → List Char) (c : Char)
    (p : List (List Char × List Char) × List Char) :
    assemble g (consGap c p) = c :: assemble g p := by
  rcases p with ⟨ps, tl⟩
  cases ps with
  | nil => simp [consGap, assemble]
  | cons gm rest =>
    rcases gm with ⟨gp, m⟩
    simp [consGap, assemble]

theorem assemble_id_scanSplitF (as : List RAtom) :
    ∀ (f : Nat) (s : List Char), assemble (fun m => m) (scanSplitF as f s) = s := by
  intro f
  induction f with
  | zero =>
    intro s
    simp [scanSplitF, assemble]
  | succ f ih =>
    intro s
    simp only [scanSplitF]
    cases hm : matchAt as s with
    | none =>
      cases s with
      | nil => simp [assemble]
      | cons c t => rw [assemble_consGap, ih]
    | some n =>
      cases s with
      | nil => simp [assemble]
      | cons c t =>
        by_cases hn : n = 0
        · subst hn
          simp only [if_pos rfl]
          show assemble _ (([], []) :: (consGap c (scanSplitF as f t)).1,
            (consGap c (scanSplitF as f t)).2) = c :: t
          have : assemble (fun m => m)
              (([], []) :: (consGap c (scanSplitF as f t)).1,
                (consGap c (scanSplitF as f t)).2) =
              assemble (fun m => m) (consGap c (scanSplitF as f t)) := by
            simp [assemble]
          rw [this, assemble_consGap, ih]
        · simp only [if_neg hn]
          show assemble _ (([], (c :: t).take n) :: (scanSplitF as f ((c :: t).drop n)).1,
            (scanSplitF as f ((c :: t).drop n)).2) = c :: t
          have : assemble (fun m => m)
              (([], (c :: t).take n) :: (scanSplitF as f ((c :: t).drop n)).1,
                (scanSplitF as f ((c :: t).drop n)).2) =
              (c :: t).take n ++ assemble (fun m => m)
                (scanSplitF as f ((c :: t).drop n)) := by
            simp [assemble]
          rw [this, ih, List.take_append_drop]

theorem replaceAllF_eq_assemble (as : List RAtom) (g : List Char → List Char) :
    ∀ (f : Nat) (s : List Char), replaceAllF as g f s = assemble g (scanSplitF as f s) := by
  intro f
  induction f with
  | zero =>
    intro s
    simp [replaceAllF, scanSplitF, assemble]
  | succ f ih =>
    intro s
    simp only [replaceAllF, scanSplitF]
    cases hm : matchAt as s with
    | none =>
      cases s with
      | nil => simp [assemble]
      | cons c t =>
        simp only []
        rw [ih, assemble_consGap]
    | some n =>
      cases s with
      | nil => simp [assemble]
      | cons c t =>
        simp only []
        by_cases hn : n = 0
        · subst hn
          simp only [if_true, ite_true, if_pos]
          rw [ih]
          rw [show assemble g (([], []) :: (consGap c (scanSplitF as f t)).1,
              (consGap c (scanSplitF as f t)).2) =
            g [] ++ assemble g (consGap c (scanSplitF as f t)) from by simp [assemble]]
          rw [assemble_consGap]
        · simp only [if_neg hn]
          rw [ih]
          simp [assemble]

theorem replaceAll_eq_assemble (as : List RAtom) (g : List Char → List Char)
    (s : List Char) : replaceAll as g s = assemble g (scanSplit as s) :=
  replaceAllF_eq_assemble as g (s.length + 1) s

theorem assemble_id_scanSplit (as : List RAtom) (s : List Char) :
    assemble (fun m => m) (scanSplit as s) = s :=
  assemble_id_scanSplitF as (s.length + 1) s

theorem consGap_mem (c : Char) (p : List (List Char × List Char) × List Char)
    (gm : List Char × List Char) (h : gm ∈ (consGap c p).1) :
    ∃ gm2 ∈ p.1, gm.2 = gm2.2 := by
  rcases p with ⟨ps, tl⟩
  cases ps with
  | nil => simp [consGap] at h
  | cons gm0 rest =>
    rcases gm0 with ⟨gp, m⟩
    simp only [consGap, List.mem_cons] at h
    rcases h with rfl | h
    · exact ⟨(gp, m), by simp⟩
    · exact ⟨gm, by simp [h]⟩

theorem scanSplitF_matches (as : List RAtom) :
    ∀ (f : Nat) (s : List Char) (gm : List Char × List Char),
      gm ∈ (scanSplitF as f s).1 →
      ∃ t n, matchAt as t = some n ∧ gm.2 = t.take n := by
  intro f
  induction f with
  | zero =>
    intro s gm h
    simp [scanSplitF] at h
  | succ f ih =>
    intro s gm h
    simp only [scanSplitF] at h
    cases hm : matchAt as s with
    | none =>
      rw [hm] at h
      cases s with
      | nil => simp at h
      | cons c t =>
        simp only [] at h
        obtain ⟨gm2, h2, he⟩ := consGap_mem c _ gm h
        obtain ⟨t0, n0, hmt, hgm⟩ := ih t gm2 h2
        exact ⟨t0, n0, hmt, he.trans hgm⟩
    | some n =>
      rw [hm] at h
      cases s with
      | nil =>
        simp only [List.mem_singleton] at h
        subst h
        exact ⟨[], n, hm, by simp⟩
      | cons c t =>
        simp only [] at h
        by_cases hn : n = 0
        · subst hn
          simp only [if_true, ite_true, List.mem_cons] at h
          rcases h with rfl | h
          · exact ⟨c :: t, 0, hm, by simp⟩
          · obtain ⟨gm2, h2, he⟩ := consGap_mem c _ gm h
            obtain ⟨t0, n0, hmt, hgm⟩ := ih t gm2 h2
            exact ⟨t0, n0, hmt, he.trans hgm⟩
        · rw [if_neg hn] at h
          simp only [List.mem_cons] at h
          rcases h with rfl | h
          · exact ⟨c :: t, n, hm, rfl⟩
          · exact ih _ gm h

/-! ## Substring occurrence -/

/-- `SubLst a b` states that `a` occurs contiguously inside `b`. -/
def SubLst (a b : List Char) : Prop := ∃ p q, b = p ++ a ++ q

theorem SubLst_trans (a b c : List Char) (h1 : SubLst a b) (h2 : SubLst b c) :
    SubLst a c := by
  obtain ⟨p1, q1, rfl⟩ := h1
  obtain ⟨p2, q2, rfl⟩ := h2
  exact ⟨p2 ++ p1, q1 ++ q2, by simp [List.append_assoc]⟩

theorem SubLst_assemble (g : List Char → List Char)
    (p : List (List Char × List Char) × List Char) (gm : List Char × List Char)
    (h : gm ∈ p.1) : SubLst (g gm.2) (assemble g p) := by
  obtain ⟨l1, l2, hsplit⟩ := List.append_of_mem h
  refine ⟨l1.flatMap (fun x => x.1 ++ g x.2) ++ gm.1,
    l2.flatMap (fun x => x.1 ++ g x.2) ++ p.2, ?_⟩
  simp only [assemble, hsplit]
  simp [List.append_assoc]

theorem SubLst_blockReplacement (startAs endAs : List RAtom) (ins m : List Char) :
    SubLst ins (blockReplacement startAs endAs ins m) := by
  refine ⟨(firstMatchStr startAs m).getD [] ++ ['\n'], '\n' ::
    (firstMatchStr endAs m).getD [], ?_⟩
  simp [blockReplacement, List.append_assoc]

/-! ## The escaping policy -/

/-- Per-character form of the composite of the five sequential
replacements in `escapeHtml`. -/
def escapeChars (c : Char) : List Char :=
  if c = '&' then "&amp;".data
  else if c = '<' then "&lt;".data
  else if c = '>' then "&gt;".data
  else if c = '"' then "&quot;".data
  else if c = '\'' then "&#039;".data
  else [c]

/-- Character-level form of one global character replacement. -/
def rep1 (c : Char) (r : List Char) (l : List Char) : List Char :=
  l.flatMap (fun a => if a = c then r else [a])

theorem replaceCharWith_data (c : Char) (r s : String) :
    (replaceCharWith c r s).data = rep1 c r.data s.data := rfl

theorem rep1_append (c : Char) (r x y : List Char) :
    rep1 c r (x ++ y) = rep1 c r x ++ rep1 c r y := by
  simp [rep1]

theorem escapeHtml_data (u : String) : (escapeHtml u).data = u.data.flatMap escapeChars := by
  show rep1 '\'' "&#039;".data (rep1 '"' "&quot;".data (rep1 '>' "&gt;".data
    (rep1 '<' "&lt;".data (rep1 '&' "&amp;".data u.data)))) = u.data.flatMap escapeChars
  induction u.data with
  | nil => rfl
  | cons a l ih =>
    have hcons : ∀ (c : Char) (r : List Char) (b : Char) (t : List Char),
        rep1 c r (b :: t) = (if b = c then r else [b]) ++ rep1 c r t := by
      intro c r b t
      simp [rep1]
    rw [hcons, rep1_append, rep1_append, rep1_append, rep1_append,
      List.flatMap_cons, ih]
    congr 1
    by_cases h1 : a = '&'
    · subst h1
      decide
    · by_cases h2 : a = '<'
      · subst h2
        decide
      · by_cases h3 : a = '>'
        · subst h3
          decide
        · by_cases h4 : a = '"'
          · subst h4
            decide
          · by_cases h5 : a = '\''
            · subst h5
              decide
            · simp [escapeChars, rep1, h1, h2, h3, h4, h5]

theorem escapeChars_no_raw (a : Char) :
    '<' ∉ escapeChars a ∧ '>' ∉ escapeChars a ∧ '"' ∉ escapeChars a ∧
      '\'' ∉ escapeChars a := by
  unfold escapeChars
  by_cases h1 : a = '&'
  · subst h1
    decide
  · by_cases h2 : a = '<'
    · subst h2
      decide
    · by_cases h3 : a = '>'
      · subst h3
        decide
      · by_cases h4 : a = '"'
        · subst h4
          decide
        · by_cases h5 : a = '\''
          · subst h5
            decide
          · simp [h1, h2, h3, h4, h5]
            exact ⟨fun h => h2 h.symm, fun h => h3 h.symm, fun h => h4 h.symm,
              fun h => h5 h.symm⟩

theorem flatMap_escapeChars_no_raw (l : List Char) :
    '<' ∉ l.flatMap escapeChars ∧ '>' ∉ l.flatMap escapeChars ∧
      '"' ∉ l.flatMap escapeChars ∧ '\'' ∉ l.flatMap escapeChars := by
  refine ⟨?_, ?_, ?_, ?_⟩ <;>
    · intro h
      rw [List.mem_flatMap] at h
      obtain ⟨a, _, ha⟩ := h
      have := escapeChars_no_raw a
      tauto

theorem SubLst_entity_of_mem (l : List Char) (c : Char) (hc : c ∈ l) :
    SubLst (escapeChars c) (l.flatMap escapeChars) := by
  obtain ⟨l1, l2, rfl⟩ := List.append_of_mem hc
  refine ⟨l1.flatMap escapeChars, l2.flatMap escapeChars, ?_⟩
  simp

theorem escapeChars_count_amp (a : Char) :
    (escapeChars a).count '&' =
      (if a = '&' ∨ a = '<' ∨ a = '>' ∨ a = '"' ∨ a = '\'' then 1 else 0) := by
  unfold escapeChars
  by_cases h1 : a = '&'
  · subst h1
    decide
  · by_cases h2 : a = '<'
    · subst h2
      decide
    · by_cases h3 : a = '>'
      · subst h3
        decide
      · by_cases h4 : a = '"'
        · subst h4
          decide
        · by_cases h5 : a = '\''
          · subst h5
            decide
          · simp only [if_neg h1, if_neg h2, if_neg h3, if_neg h4, if_neg h5]
            rw [if_neg (by tauto)]
            simp [List.count_cons, Ne.symm h1]

theorem flatMap_escapeChars_count_amp (l : List Char) :
    (l.flatMap escapeChars).count '&' =
      l.countP (fun c => c = '&' || c = '<' || c = '>' || c = '"' || c = '\'') := by
  induction l with
  | nil => rfl
  | cons a l ih =>
    rw [List.flatMap_cons, List.count_append, ih, List.countP_cons,
      escapeChars_count_amp]
    by_cases h : a = '&' ∨ a = '<' ∨ a = '>' ∨ a = '"' ∨ a = '\''
    · rw [if_pos h]
      have hb : (a = '&' || a = '<' || a = '>' || a = '"' || a = '\'') = true := by
        simp only [Bool.or_eq_true, decide_eq_true_eq]
        tauto
      rw [if_pos hb]
      omega
    · rw [if_neg h]
      have hb : ¬((a = '&' || a = '<' || a = '>' || a = '"' || a = '\'') = true) := by
        simp only [Bool.or_eq_true, decide_eq_true_eq]
        tauto
      rw [if_neg hb]
      omega

/-! ## C3: the escaping policy of substituted values -/

theorem matchAt_blockAtoms_nil (t1 t2 : List Char) :
    matchAt (blockAtoms t1 t2) [] = none := rfl

/-- A successful single-key call either passed through an empty document or
produced exactly the `replaceAll` substitution of that key. -/
theorem rewrite_single_key_cases (s k v : String) (opts : Options) (out : String)
    (hok : rewriteMdComment (.str s) (.obj [(k, some v)]) opts = .ok (.str out)) :
    (s = "" ∧ out = s) ∨
      out.data = replaceAll
        (compiledAtoms (blockPattern k opts.startMarker opts.endMarker))
        (blockReplacement (compiledAtoms (startPattern k opts.startMarker))
          (compiledAtoms (endPattern k opts.endMarker))
          (renderValue opts.allowRaw v).data) s.data := by
  unfold rewriteMdComment at hok
  by_cases hs : s = ""
  · left
    subst hs
    simp [toStr, contentFalsy, isPlainObject, returnThis, JsDoc.isBuffer] at hok
    exact ⟨rfl, hok.symm⟩
  · right
    have h1 : contentFalsy (toStr (.str s)) = false := by
      simpa [toStr, contentFalsy] using hs
    rw [if_neg (by simp [h1, isPlainObject])] at hok
    by_cases hm : opts.startMarker = "" ∨ opts.endMarker = ""
    · rw [if_pos hm] at hok
      exact absurd hok (by simp)
    · rw [if_neg hm] at hok
      simp only [toStr] at hok
      rw [processEntries_cons] at hok
      by_cases hres : k = opts.startMarker ∨ k = opts.endMarker
      · rw [show processKey opts.startMarker opts.endMarker opts.allowRaw s.data k
            (some v) = .error (.keyConflict k) from by simp [processKey, hres]] at hok
        exact absurd hok (by simp [Except.map, Bind.bind, Except.bind])
      · by_cases hcnt : scanCount (compiledAtoms (startPattern k opts.startMarker))
            s.data ≠ scanCount (compiledAtoms (endPattern k opts.endMarker)) s.data
        · rw [show processKey opts.startMarker opts.endMarker opts.allowRaw s.data k
              (some v) = .error (.unmatched k
                (scanCount (compiledAtoms (startPattern k opts.startMarker)) s.data)
                (scanCount (compiledAtoms (endPattern k opts.endMarker)) s.data)) from by
            simp [processKey, hres, hcnt]] at hok
          exact absurd hok (by simp [Except.map, Bind.bind, Except.bind])
        · push_neg at hcnt
          rw [show processKey opts.startMarker opts.endMarker opts.allowRaw s.data k
              (some v) = .ok (replaceAll
                (compiledAtoms (blockPattern k opts.startMarker opts.endMarker))
                (blockReplacement (compiledAtoms (startPattern k opts.startMarker))
                  (compiledAtoms (endPattern k opts.endMarker))
                  (renderValue opts.allowRaw v).data) s.data) from by
            simp [processKey, hres, hcnt]] at hok
          simp only [Bind.bind, Except.bind, processEntries_nil, Except.map,
            returnThis, JsDoc.isBuffer, Bool.and_false, Bool.false_eq_true,
            if_false] at hok
          have h2 := Except.ok.inj hok
          simp only [JsDoc.str.injEq] at h2
          rw [← h2]

/-- CLAIM C3 counterexample: with `allowRaw = false` and a value containing
all five special characters, the output still contains the raw character
`&` (inside the entity renderings), so the output does not avoid all the
raw characters. -/
theorem escapingPolicy_counter :
    rewriteMdComment (.str "<!-- v:start -->x<!-- v:end -->")
        (.obj [("v", some "<>&\"'")]) defaultOptions =
      .ok (.str "<!-- v:start -->\n&lt;&gt;&amp;&quot;&#039;\n<!-- v:end -->") ∧
    '&' ∈ ("<!-- v:start -->\n&lt;&gt;&amp;&quot;&#039;\n<!-- v:end -->" : String).data := by
  constructor
  · decide
  · decide

/-- Amended C3: with at least one block, the rendered value is inserted
into the output; with `allowRaw = false` it is `escapeHtml` of the value,
which contains none of the raw characters `<`, `>`, `"`, `'`, contains the
entity of each special character present in the value, and contains a raw
`&` only as part of those entity renderings (one `&` per escaped
character); with `allowRaw = true` the value is inserted verbatim. -/
theorem escapingPolicy (s k v : String) (opts : Options) (out : String)
    (hok : rewriteMdComment (.str s) (.obj [(k, some v)]) opts = .ok (.str out))
    (hblk : (scanSplit (compiledAtoms (blockPattern k opts.startMarker opts.endMarker))
      s.data).1 ≠ []) :
    SubLst (renderValue opts.allowRaw v).data out.data ∧
    (opts.allowRaw = true → renderValue opts.allowRaw v = v) ∧
    (opts.allowRaw = false →
      renderValue opts.allowRaw v = escapeHtml v ∧
      ('<' ∉ (escapeHtml v).data ∧ '>' ∉ (escapeHtml v).data ∧
        '"' ∉ (escapeHtml v).data ∧ '\'' ∉ (escapeHtml v).data) ∧
      ('&' ∈ v.data → SubLst "&amp;".data out.data) ∧
      ('<' ∈ v.data → SubLst "&lt;".data out.data) ∧
      ('>' ∈ v.data → SubLst "&gt;".data out.data) ∧
      ('"' ∈ v.data → SubLst "&quot;".data out.data) ∧
      ('\'' ∈ v.data → SubLst "&#039;".data out.data) ∧
      (escapeHtml v).data.count '&' =
        v.data.countP (fun c => c = '&' || c = '<' || c = '>' || c = '"' || c = '\'')) := by
  rcases rewrite_single_key_cases s k v opts out hok with ⟨hs, hout⟩ | hout
  · exfalso
    apply hblk
    subst hs
    rw [compiledAtoms_blockPattern]
    rfl
  · have hrepl : out.data = assemble
        (blockReplacement (compiledAtoms (startPattern k opts.startMarker))
          (compiledAtoms (endPattern k opts.endMarker))
          (renderValue opts.allowRaw v).data)
        (scanSplit (compiledAtoms (blockPattern k opts.startMarker opts.endMarker))
          s.data) := by
      rw [hout, replaceAll_eq_assemble]
    obtain ⟨gm, hgm⟩ := List.exists_mem_of_ne_nil _ hblk
    have hsub : SubLst (renderValue opts.allowRaw v).data out.data := by
      have hstep : SubLst (blockReplacement
          (compiledAtoms (startPattern k opts.startMarker))
          (compiledAtoms (endPattern k opts.endMarker))
          (renderValue opts.allowRaw v).data gm.2) out.data := by
        rw [hrepl]
        exact SubLst_assemble _ _ _ hgm
      exact SubLst_trans _ _ _ (SubLst_blockReplacement _ _ _ gm.2) hstep
    refine ⟨hsub, fun hr => by simp [renderValue, hr], fun hr => ?_⟩
    have hrv : renderValue opts.allowRaw v = escapeHtml v := by
      simp [renderValue, hr]
    have hEscOut : SubLst (escapeHtml v).data out.data := by
      rw [← hrv]
      exact hsub
    have hdata := escapeHtml_data v
    have hnr := flatMap_escapeChars_no_raw v.data
    refine ⟨hrv, ?_, ?_, ?_, ?_, ?_, ?_, ?_⟩
    · rw [hdata]
      exact hnr
    · intro hmem
      refine SubLst_trans _ _ _ ?_ hEscOut
      rw [hdata]
      exact SubLst_entity_of_mem v.data '&' hmem
    · intro hmem
      refine SubLst_trans _ _ _ ?_ hEscOut
      rw [hdata]
      exact SubLst_entity_of_mem v.data '<' hmem
    · intro hmem
      refine SubLst_trans _ _ _ ?_ hEscOut
      rw [hdata]
      exact SubLst_entity_of_mem v.data '>' hmem
    · intro hmem
      refine SubLst_trans _ _ _ ?_ hEscOut
      rw [hdata]
      exact SubLst_entity_of_mem v.data '"' hmem
    · intro hmem
      refine SubLst_trans _ _ _ ?_ hEscOut
      rw [hdata]
      exact SubLst_entity_of_mem v.data '\'' hmem
    · rw [hdata]
      exact flatMap_escapeChars_count_amp v.data

theorem escapingPolicy_w :
    SubLst (renderValue false "<b>").data
        ("<!-- v:start -->\n&lt;b&gt;\n<!-- v:end -->" : String).data ∧
      '<' ∉ (escapeHtml "<b>").data := by
  have h := escapingPolicy "<!-- v:start -->a<!-- v:end -->" "v" "<b>" defaultOptions
    "<!-- v:start -->\n&lt;b&gt;\n<!-- v:end -->" (by decide) (by decide)
  exact ⟨h.1, (h.2.2 rfl).2.1.1⟩

/-! ## Factoring matches of concatenated atom sequences -/

theorem matchAt_mem (as : List RAtom) (s : List Char) (n : Nat)
    (h : matchAt as s = some n) : n ∈ seqLens as s := by
  unfold matchAt at h
  cases hl : seqLens as s with
  | nil => rw [hl] at h; simp at h
  | cons a l =>
    rw [hl] at h
    simp only [List.head?_cons, Option.some.injEq] at h
    simp [h]

theorem matchAt_isSome_of_mem (as : List RAtom) (s : List Char) (n : Nat)
    (h : n ∈ seqLens as s) : ∃ n1, matchAt as s = some n1 := by
  unfold matchAt
  cases hl : seqLens as s with
  | nil => rw [hl] at h; simp at h
  | cons a l => exact ⟨a, rfl⟩

theorem seqLens_append_mem (A B : List RAtom) :
    ∀ (s : List Char) (n : Nat),
      n ∈ seqLens (A ++ B) s ↔
        ∃ i, i ∈ seqLens A s ∧ ∃ j, j ∈ seqLens B (s.drop i) ∧ n = i + j := by
  induction A with
  | nil =>
    intro s n
    constructor
    · intro h
      exact ⟨0, by simp [seqLens], n, by simpa using h, by omega⟩
    · rintro ⟨i, hi, j, hj, rfl⟩
      simp only [seqLens, List.mem_singleton] at hi
      subst hi
      simpa using hj
  | cons a A ih =>
    intro s n
    cases a with
    | once c =>
      cases s with
      | nil =>
        show n ∈ seqLens (.once c :: (A ++ B)) [] ↔ _
        simp [seqLens]
      | cons x xs =>
        show n ∈ seqLens (.once c :: (A ++ B)) (x :: xs) ↔ _
        by_cases hc : c.check x
        · simp only [seqLens, if_pos hc]
          constructor
          · intro h
            rw [List.mem_map] at h
            obtain ⟨m, hm, rfl⟩ := h
            obtain ⟨i, hiA, j, hj, rfl⟩ := (ih xs m).1 hm
            refine ⟨i + 1, ?_, j, by simpa using hj, by omega⟩
            rw [List.mem_map]
            exact ⟨i, hiA, rfl⟩
          · rintro ⟨i, hi, j, hj, rfl⟩
            rw [List.mem_map] at hi
            obtain ⟨i2, hi2, rfl⟩ := hi
            rw [List.mem_map]
            refine ⟨i2 + j, (ih xs _).2 ⟨i2, hi2, j, by simpa using hj, rfl⟩, by omega⟩
        · simp only [seqLens, if_neg hc]
          constructor
          · intro h
            simp at h
          · rintro ⟨i, hi, j, hj, rfl⟩
            simp at hi
    | star c =>
      show n ∈ seqLens (.star c :: (A ++ B)) s ↔ _
      rw [seqLens_star_mem]
      constructor
      · rintro ⟨k, hk, m, hm, rfl⟩
        obtain ⟨i, hiA, j, hj, rfl⟩ := (ih _ m).1 hm
        refine ⟨i + k, (seqLens_star_mem c A s (i + k)).2 ⟨k, hk, i, hiA, rfl⟩, j, ?_, by omega⟩
        rw [List.drop_drop] at hj
        rw [show i + k = k + i from by omega]
        exact hj
      · rintro ⟨i, hi, j, hj, rfl⟩
        obtain ⟨k, hk, i2, hi2, rfl⟩ := (seqLens_star_mem c A s i).1 hi
        refine ⟨k, hk, i2 + j, (ih _ _).2 ⟨i2, hi2, j, ?_, rfl⟩, by omega⟩
        rw [List.drop_drop]
        rw [show k + i2 = i2 + k from by omega]
        exact hj
    | lazyStar c =>
      show n ∈ seqLens (.lazyStar c :: (A ++ B)) s ↔ _
      rw [seqLens_lazyStar_mem]
      constructor
      · rintro ⟨k, hk, m, hm, rfl⟩
        obtain ⟨i, hiA, j, hj, rfl⟩ := (ih _ m).1 hm
        refine ⟨i + k, (seqLens_lazyStar_mem c A s (i + k)).2 ⟨k, hk, i, hiA, rfl⟩, j, ?_,
          by omega⟩
        rw [List.drop_drop] at hj
        rw [show i + k = k + i from by omega]
        exact hj
      · rintro ⟨i, hi, j, hj, rfl⟩
        obtain ⟨k, hk, i2, hi2, rfl⟩ := (seqLens_lazyStar_mem c A s i).1 hi
        refine ⟨k, hk, i2 + j, (ih _ _).2 ⟨i2, hi2, j, ?_, rfl⟩, by omega⟩
        rw [List.drop_drop]
        rw [show k + i2 = i2 + k from by omega]
        exact hj

theorem runLen_take_ge (c : RCls) :
    ∀ (s : List Char) (k m : Nat), k ≤ runLen c s → k ≤ m → k ≤ runLen c (s.take m) := by
  intro s
  induction s with
  | nil =>
    intro k m hk hm
    simpa using hk
  | cons x xs ih =>
    intro k m hk hm
    cases k with
    | zero => omega
    | succ k2 =>
      simp only [runLen] at hk
      split at hk
      next hx =>
        cases m with
        | zero => omega
        | succ m2 =>
          simp only [List.take_succ_cons, runLen, if_pos hx]
          have := ih k2 m2 (by omega) (by omega)
          omega
      next => omega

theorem seqLens_take_mem (A : List RAtom) :
    ∀ (s : List Char) (n m : Nat), n ∈ seqLens A s → n ≤ m → n ∈ seqLens A (s.take m) := by
  induction A with
  | nil =>
    intro s n m h hm
    simpa [seqLens] using h
  | cons a A ih =>
    intro s n m h hm
    cases a with
    | once c =>
      cases s with
      | nil => simp [seqLens] at h
      | cons x xs =>
        simp only [seqLens] at h
        split at h
        next hx =>
          rw [List.mem_map] at h
          obtain ⟨n2, hn2, rfl⟩ := h
          cases m with
          | zero => omega
          | succ m2 =>
            simp only [List.take_succ_cons, seqLens, if_pos hx, List.mem_map]
            exact ⟨n2, ih xs n2 m2 hn2 (by omega), rfl⟩
        next => simp at h
    | star c =>
      rw [seqLens_star_mem] at h
      obtain ⟨k, hk, n2, hn2, rfl⟩ := h
      rw [seqLens_star_mem]
      refine ⟨k, runLen_take_ge c s k m hk (by omega), n2, ?_, rfl⟩
      rw [List.drop_take]
      exact ih _ n2 (m - k) hn2 (by omega)
    | lazyStar c =>
      rw [seqLens_lazyStar_mem] at h
      obtain ⟨k, hk, n2, hn2, rfl⟩ := h
      rw [seqLens_lazyStar_mem]
      refine ⟨k, runLen_take_ge c s k m hk (by omega), n2, ?_, rfl⟩
      rw [List.drop_take]
      exact ih _ n2 (m - k) hn2 (by omega)

/-! ## First matches -/

theorem firstMatchStr_at_zero (as : List RAtom) (s : List Char) (n : Nat)
    (h : matchAt as s = some n) : firstMatchStr as s = some (s.take n) := by
  cases s with
  | nil =>
    show firstMatchF as 1 [] = _
    unfold firstMatchF
    rw [h]
    rfl
  | cons c t =>
    show firstMatchF as (t.length + 1 + 1) (c :: t) = _
    unfold firstMatchF
    rw [h]

theorem firstMatchStr_cons_none (as : List RAtom) (c : Char) (t : List Char)
    (h : matchAt as (c :: t) = none) :
    firstMatchStr as (c :: t) = firstMatchStr as t := by
  show firstMatchF as (t.length + 1 + 1) (c :: t) = _
  unfold firstMatchF
  rw [h]
  rfl

theorem firstMatch_exists (as : List RAtom) :
    ∀ (s : List Char) (j n : Nat), matchAt as (s.drop j) = some n →
      ∃ j2 n2, matchAt as (s.drop j2) = some n2 ∧
        firstMatchStr as s = some ((s.drop j2).take n2) := by
  intro s
  induction s with
  | nil =>
    intro j n h
    simp only [List.drop_nil] at h
    refine ⟨0, n, by simpa using h, ?_⟩
    rw [firstMatchStr_at_zero as [] n (by simpa using h)]
    simp
  | cons c t ih =>
    intro j n h
    cases hm : matchAt as (c :: t) with
    | some n0 =>
      refine ⟨0, n0, by simpa using hm, ?_⟩
      rw [firstMatchStr_at_zero as (c :: t) n0 hm]
      simp
    | none =>
      cases j with
      | zero =>
        rw [List.drop_zero] at h
        rw [h] at hm
        cases hm
      | succ j2 =>
        rw [List.drop_succ_cons] at h
        obtain ⟨j3, n3, hm3, hfm3⟩ := ih j2 n h
        refine ⟨j3 + 1, n3, by simpa using hm3, ?_⟩
        rw [firstMatchStr_cons_none as c t hm, hfm3]
        simp

/-! ## Shape of a block match and its replacement -/

theorem blockAtoms_parts (t1 t2 : List Char) (s : List Char) (n : Nat)
    (h : matchAt (blockAtoms t1 t2) s = some n) :
    (∃ n1, matchAt (markerAtoms t1) (s.take n) = some n1) ∧
    (∃ j n2, matchAt (markerAtoms t2) ((s.take n).drop j) = some n2) := by
  have hn := matchAt_mem _ _ _ h
  unfold blockAtoms at hn
  rw [seqLens_append_mem] at hn
  obtain ⟨i, hi, j0, hj0, rfl⟩ := hn
  rw [seqLens_lazyStar_mem] at hj0
  obtain ⟨k, hk, m2, hm2, rfl⟩ := hj0
  constructor
  · have hi2 := seqLens_take_mem _ s i (i + (m2 + k)) hi (by omega)
    exact matchAt_isSome_of_mem _ _ _ hi2
  · rw [List.drop_drop] at hm2
    have hm3 := seqLens_take_mem _ (s.drop (i + k)) m2 m2 hm2 (le_refl m2)
    rw [show (s.drop (i + k)).take m2 = (s.take (i + (m2 + k))).drop (i + k) from ?_] at hm3
    · exact ⟨i + k, matchAt_isSome_of_mem _ _ _ hm3⟩
    · rw [List.drop_take]
      congr 1
      omega

theorem blockRepl_shape (t1 t2 : List Char) (ins m0 : List Char)
    (hm : ∃ t n, matchAt (blockAtoms t1 t2) t = some n ∧ m0 = t.take n) :
    ∃ n1, matchAt (markerAtoms t1) m0 = some n1 ∧
    ∃ j n2, matchAt (markerAtoms t2) (m0.drop j) = some n2 ∧
      blockReplacement (markerAtoms t1) (markerAtoms t2) ins m0 =
        m0.take n1 ++ '\n' :: ins ++ '\n' :: ((m0.drop j).take n2) := by
  obtain ⟨t, n, hmt, rfl⟩ := hm
  obtain ⟨⟨n1, h1⟩, ⟨j, n2, h2⟩⟩ := blockAtoms_parts t1 t2 t n hmt
  refine ⟨n1, h1, ?_⟩
  obtain ⟨j2, n2b, hm2, hfm⟩ := firstMatch_exists (markerAtoms t2) (t.take n) j n2 h2
  refine ⟨j2, n2b, hm2, ?_⟩
  unfold blockReplacement
  rw [firstMatchStr_at_zero _ _ _ h1, hfm]
  simp

/-! ## C1: the frame effect of a successful rewrite -/

theorem processEntries_chain (sm em : String) (ar : Bool) :
    ∀ (entries : List (String × Option String)) (c0 cend : List Char),
      processEntries sm em ar entries c0 = .ok cend →
      ∃ cs : List (List Char), cs.length = entries.length + 1 ∧
        cs.head? = some c0 ∧ cs.getLast? = some cend ∧
        ∀ (i : Nat) (hi : i < entries.length) (h1 : i < cs.length)
          (h2 : i + 1 < cs.length),
          processKey sm em ar (cs.get ⟨i, h1⟩) (entries.get ⟨i, hi⟩).1
            (entries.get ⟨i, hi⟩).2 = .ok (cs.get ⟨i + 1, h2⟩) := by
  intro entries
  induction entries with
  | nil =>
    intro c0 cend h
    rw [processEntries_nil] at h
    have he : c0 = cend := Except.ok.inj h
    subst he
    refine ⟨[c0], by simp, by simp, by simp, ?_⟩
    intro i hi
    simp at hi
  | cons kv es ih =>
    intro c0 cend h
    rw [processEntries_cons] at h
    cases hpk : processKey sm em ar c0 kv.1 kv.2 with
    | error e =>
      rw [hpk] at h
      exact absurd h (by simp [Bind.bind, Except.bind])
    | ok c1 =>
      rw [hpk] at h
      have h2 : processEntries sm em ar es c1 = .ok cend := by
        simpa [Bind.bind, Except.bind] using h
      obtain ⟨cs, hlen, hhead, hlast, hstep⟩ := ih c1 cend h2
      cases cs with
      | nil => simp at hlen
      | cons cHead csTail =>
        have hc1 : cHead = c1 := by simpa using hhead
        refine ⟨c0 :: cHead :: csTail, ?_, by simp, ?_, ?_⟩
        · simp at hlen ⊢
          omega
        · rw [List.getLast?_cons_cons]
          exact hlast
        · intro i hi hh1 hh2
          cases i with
          | zero =>
            show processKey sm em ar c0 kv.1 kv.2 = .ok cHead
            rw [hc1]
            exact hpk
          | succ i2 =>
            have hi2 : i2 < es.length := by simpa using hi
            have g1 : i2 < (cHead :: csTail).length := by
              simp at hlen ⊢
              omega
            have g2 : i2 + 1 < (cHead :: csTail).length := by
              simp at hlen ⊢
              omega
            have hs := hstep i2 hi2 g1 g2
            simpa using hs

/-- The relation between the document state before and after one entry of
the key loop: a null/undefined value leaves the state unchanged; otherwise
the counts of the key's start and end markers agree, the state decomposes
into gaps and block matches, the next state replaces each match and keeps
every gap character unchanged, and each replaced match contributes its own
start-marker text (a literal prefix of the match), a line break, the
rendered value, a line break, and an end-marker text found literally
inside the match. -/
def KeyFrame (sm em : String) (ar : Bool) (kv : String × Option String)
    (c cNext : List Char) : Prop :=
  (kv.2 = none ∧ cNext = c) ∨
  ∃ vv, kv.2 = some vv ∧
    scanCount (markerAtoms (tokChars kv.1 sm)) c =
      scanCount (markerAtoms (tokChars kv.1 em)) c ∧
    c = assemble (fun m => m)
      (scanSplit (blockAtoms (tokChars kv.1 sm) (tokChars kv.1 em)) c) ∧
    cNext = assemble
      (blockReplacement (markerAtoms (tokChars kv.1 sm))
        (markerAtoms (tokChars kv.1 em)) (renderValue ar vv).data)
      (scanSplit (blockAtoms (tokChars kv.1 sm) (tokChars kv.1 em)) c) ∧
    ∀ gm ∈ (scanSplit (blockAtoms (tokChars kv.1 sm) (tokChars kv.1 em)) c).1,
      ∃ n1, matchAt (markerAtoms (tokChars kv.1 sm)) gm.2 = some n1 ∧
      ∃ j n2, matchAt (markerAtoms (tokChars kv.1 em)) (gm.2.drop j) = some n2 ∧
        blockReplacement (markerAtoms (tokChars kv.1 sm))
          (markerAtoms (tokChars kv.1 em)) (renderValue ar vv).data gm.2 =
          gm.2.take n1 ++ '\n' :: (renderValue ar vv).data ++
            '\n' :: ((gm.2.drop j).take n2)

theorem processKey_frame (sm em : String) (ar : Bool) (c cNext : List Char)
    (k : String) (v : Option String)
    (h : processKey sm em ar c k v = .ok cNext) :
    KeyFrame sm em ar (k, v) c cNext := by
  by_cases hres : k = sm ∨ k = em
  · rw [show processKey sm em ar c k v = .error (.keyConflict k) from by
      simp [processKey, hres]] at h
    exact absurd h (by simp)
  · cases v with
    | none =>
      left
      rw [show processKey sm em ar c k none = .ok c from by
        simp [processKey, hres]] at h
      exact ⟨rfl, (Except.ok.inj h).symm⟩
    | some vv =>
      right
      by_cases hcnt : scanCount (compiledAtoms (startPattern k sm)) c ≠
          scanCount (compiledAtoms (endPattern k em)) c
      · rw [show processKey sm em ar c k (some vv) = .error (.unmatched k
            (scanCount (compiledAtoms (startPattern k sm)) c)
            (scanCount (compiledAtoms (endPattern k em)) c)) from by
          simp [processKey, hres, hcnt]] at h
        exact absurd h (by simp)
      · push_neg at hcnt
        rw [show processKey sm em ar c k (some vv) = .ok (replaceAll
            (compiledAtoms (blockPattern k sm em))
            (blockReplacement (compiledAtoms (startPattern k sm))
              (compiledAtoms (endPattern k em)) (renderValue ar vv).data) c) from by
          simp [processKey, hres, hcnt]] at h
        have hNext := (Except.ok.inj h).symm
        rw [compiledAtoms_blockPattern, compiledAtoms_startPattern,
          compiledAtoms_endPattern] at hNext
        rw [compiledAtoms_startPattern, compiledAtoms_endPattern] at hcnt
        refine ⟨vv, rfl, hcnt, (assemble_id_scanSplit _ _).symm, ?_, ?_⟩
        · rw [hNext, replaceAll_eq_assemble]
        · intro gm hgm
          exact blockRepl_shape _ _ _ _ (scanSplitF_matches _ _ _ gm hgm)

/-- For every successful call on a non-empty string document, the key loop
yields a chain of document states, one per mapping entry, whose last state
is the output; each step is a `KeyFrame`: characters outside the matched
blocks are carried over unchanged, the matched start and end marker texts
are preserved byte-for-byte as found (including their inner whitespace),
and each block becomes start marker, line break, rendered value, line
break, end marker. -/
theorem frameEffect (s : String) (entries : List (String × Option String))
    (opts : Options) (out : JsDoc)
    (hok : rewriteMdComment (.str s) (.obj entries) opts = .ok out) :
    (s = "" ∧ out = .str "") ∨
    ∃ cs : List (List Char), cs.length = entries.length + 1 ∧
      cs.head? = some s.data ∧
      (∃ last, cs.getLast? = some last ∧ out = .str (String.mk last)) ∧
      ∀ (i : Nat) (hi : i < entries.length) (h1 : i < cs.length)
        (h2 : i + 1 < cs.length),
        KeyFrame opts.startMarker opts.endMarker opts.allowRaw
          (entries.get ⟨i, hi⟩) (cs.get ⟨i, h1⟩) (cs.get ⟨i + 1, h2⟩) := by
  by_cases hs : s = ""
  · left
    subst hs
    unfold rewriteMdComment at hok
    simp [toStr, contentFalsy, isPlainObject, returnThis, JsDoc.isBuffer] at hok
    exact ⟨rfl, hok.symm⟩
  right
  unfold rewriteMdComment at hok
  have h1 : contentFalsy (toStr (.str s)) = false := by
    simpa [toStr, contentFalsy] using hs
  rw [if_neg (by simp [h1, isPlainObject])] at hok
  by_cases hm : opts.startMarker = "" ∨ opts.endMarker = ""
  · rw [if_pos hm] at hok
    exact absurd hok (by simp)
  · rw [if_neg hm] at hok
    simp only [toStr] at hok
    rcases hfold : processEntries opts.startMarker opts.endMarker opts.allowRaw
        entries s.data with e | cend
    · rw [hfold] at hok
      exact absurd hok (by simp [Except.map])
    · rw [hfold] at hok
      simp only [Except.map, returnThis, JsDoc.isBuffer, Bool.and_false,
        Bool.false_eq_true, if_false] at hok
      have hout : out = .str (String.mk cend) := (Except.ok.inj hok).symm
      obtain ⟨cs, hlen, hhead, hlast, hstep⟩ :=
        processEntries_chain opts.startMarker opts.endMarker opts.allowRaw
          entries s.data cend hfold
      refine ⟨cs, hlen, hhead, ⟨cend, hlast, hout⟩, ?_⟩
      intro i hi hh1 hh2
      have hk := hstep i hi hh1 hh2
      have := processKey_frame opts.startMarker opts.endMarker opts.allowRaw
        (cs.get ⟨i, hh1⟩) (cs.get ⟨i + 1, hh2⟩) (entries.get ⟨i, hi⟩).1
        (entries.get ⟨i, hi⟩).2 hk
      simpa using this

theorem frameEffect_w :
    ("<!-- a:start -->x<!-- a:end -->" = "" ∧
      (JsDoc.str "<!-- a:start -->\n1\n<!-- a:end -->" : JsDoc) = .str "") ∨
    ∃ cs : List (List Char), cs.length = 2 + 1 ∧
      cs.head? = some ("<!-- a:start -->x<!-- a:end -->" : String).data ∧
      (∃ last, cs.getLast? = some last ∧
        (JsDoc.str "<!-- a:start -->\n1\n<!-- a:end -->" : JsDoc) =
          .str (String.mk last)) ∧
      ∀ (i : Nat) (hi : i < ([("a", some "1"), ("b", none)] :
          List (String × Option String)).length)
        (h1 : i < cs.length) (h2 : i + 1 < cs.length),
        KeyFrame "start" "end" false
          (([("a", some "1"), ("b", none)] :
            List (String × Option String)).get ⟨i, hi⟩)
          (cs.get ⟨i, h1⟩) (cs.get ⟨i + 1, h2⟩) := by
  have h := frameEffect "<!-- a:start -->x<!-- a:end -->"
    [("a", some "1"), ("b", none)] defaultOptions
    (.str "<!-- a:start -->\n1\n<!-- a:end -->") (by decide)
  simpa [defaultOptions] using h

/-! ## C2: unmatched marker counts are a hard stop -/

/-- When the first not-skipped, non-reserved key whose counts disagree is
reached, the whole call fails with the unmatched-markers error carrying that
key and both counts (computed on the document state after the prior keys);
no substitution for that key and no later key is attempted, and the error
message reports the key and both counts. -/
theorem unmatchedMarkersHardStop (s : String) (pre post : List (String × Option String))
    (k v : String) (opts : Options) (c : List Char)
    (hs : s ≠ "") (hsm : opts.startMarker ≠ "") (hem : opts.endMarker ≠ "")
    (hk1 : k ≠ opts.startMarker) (hk2 : k ≠ opts.endMarker)
    (hpre : processEntries opts.startMarker opts.endMarker opts.allowRaw pre s.data = .ok c)
    (hcount : scanCount (compiledAtoms (startPattern k opts.startMarker)) c ≠
      scanCount (compiledAtoms (endPattern k opts.endMarker)) c) :
    rewriteMdComment (.str s) (.obj (pre ++ (k, some v) :: post)) opts =
      .error (.unmatched k
        (scanCount (compiledAtoms (startPattern k opts.startMarker)) c)
        (scanCount (compiledAtoms (endPattern k opts.endMarker)) c)) ∧
    ∀ sc ec, (RewriteError.unmatched k sc ec).message =
      "[rewrite.md] Unmatched markers for key " ++ k ++ ": start=" ++ toString sc ++
        ", end=" ++ toString ec := by
  constructor
  · unfold rewriteMdComment
    have h1 : contentFalsy (toStr (.str s)) = false := by
      simpa [toStr, contentFalsy] using hs
    have h2 : ¬(opts.startMarker = "" ∨ opts.endMarker = "") := by
      rintro (h | h) <;> simp_all
    simp only [toStr] at h1 ⊢
    rw [if_neg (by simp [h1, isPlainObject]), if_neg h2]
    rw [processEntries_append, hpre]
    show Except.map _ (processEntries _ _ _ ((k, some v) :: post) c) = _
    rw [processEntries_cons]
    simp [processKey, hk1, hk2, hcount, Except.map, Bind.bind, Except.bind]
  · intro sc ec
    rfl

theorem unmatchedMarkersHardStop_w :
    rewriteMdComment (.str "<!-- v:start -->x") (.obj [("v", some "1")]) defaultOptions =
      .error (.unmatched "v" 1 0) ∧
    rewriteMdComment (.str "<!-- v:start -->1<!-- v:end --><!-- v:end -->")
        (.obj [("v", some "1")]) defaultOptions =
      .error (.unmatched "v" 1 2) := by
  constructor
  · have h := (unmatchedMarkersHardStop "<!-- v:start -->x" [] [] "v" "1" defaultOptions
      ("<!-- v:start -->x".data) (by decide) (by decide) (by decide) (by decide) (by decide)
      rfl (by decide)).1
    simp only [List.nil_append] at h
    rw [h]
    decide
  · have h := (unmatchedMarkersHardStop "<!-- v:start -->1<!-- v:end --><!-- v:end -->"
      [] [] "v" "1" defaultOptions
      ("<!-- v:start -->1<!-- v:end --><!-- v:end -->".data) (by decide) (by decide)
      (by decide) (by decide) (by decide) rfl (by decide)).1
    simp only [List.nil_append] at h
    rw [h]
    decide

/-! ## C8: idempotence

The spec claims rewriting twice with the same mapping equals rewriting
once, for all documents.  The claim fails when markers for a key overlap
or nest (the first rewrite changes the marker structure); it holds on
documents made of marker-free text and disjoint, complete blocks.  The
development below computes `seqLens` exactly on such documents. -/

/-- Sequencing two atom lists: the priority-ordered lengths of the
concatenation factor through those of the first list. -/
theorem seqLens_append_eq (A B : List RAtom) :
    ∀ s : List Char, seqLens (A ++ B) s =
      (seqLens A s).flatMap
        (fun n => (seqLens B (s.drop n)).map (· + n)) := by
  induction A with
  | nil =>
    intro s
    simp [seqLens]
  | cons a A ih =>
    intro s
    cases a with
    | once c =>
      cases s with
      | nil => simp [seqLens]
      | cons x xs =>
        show seqLens (.once c :: (A ++ B)) (x :: xs) = _
        simp only [seqLens]
        by_cases hc : c.check x
        · rw [if_pos hc, if_pos hc, ih xs, List.flatMap_map, List.map_flatMap]
          refine List.flatMap_congr ?_
          intro m _
          simp only [List.map_map, List.drop_succ_cons]
          refine List.map_congr_left ?_
          intro z _
          simp only [Function.comp_apply]
          omega
        · rw [if_neg hc, if_neg hc]
          simp
    | star c =>
      show seqLens (.star c :: (A ++ B)) s = _
      simp only [seqLens, List.flatMap_assoc]
      refine List.flatMap_congr ?_
      intro k _
      rw [ih (s.drop k), List.map_flatMap, List.flatMap_map]
      refine List.flatMap_congr ?_
      intro m _
      simp only [List.map_map, List.drop_drop]
      rw [show m + k = k + m from by omega]
      refine List.map_congr_left ?_
      intro z _
      simp only [Function.comp_apply]
      omega
    | lazyStar c =>
      show seqLens (.lazyStar c :: (A ++ B)) s = _
      simp only [seqLens, List.flatMap_assoc]
      refine List.flatMap_congr ?_
      intro k _
      rw [ih (s.drop k), List.map_flatMap, List.flatMap_map]
      refine List.flatMap_congr ?_
      intro m _
      simp only [List.map_map, List.drop_drop]
      rw [show m + k = k + m from by omega]
      refine List.map_congr_left ?_
      intro z _
      simp only [Function.comp_apply]
      omega

theorem seqLens_append_nil_left (A B : List RAtom) (s : List Char)
    (h : seqLens A s = []) : seqLens (A ++ B) s = [] := by
  rw [seqLens_append_eq, h]
  rfl

theorem seqLens_append_single_left (A B : List RAtom) (s : List Char) (n : Nat)
    (h : seqLens A s = [n]) :
    seqLens (A ++ B) s = (seqLens B (s.drop n)).map (· + n) := by
  rw [seqLens_append_eq, h]
  simp


/-- The maximal run length over `w ++ u` is `w.length` when `w` lies in
the class and `u` does not start in it. -/
theorem runLen_eq_of (c : RCls) (w u : List Char)
    (hw : ∀ x ∈ w, c.check x = true)
    (hu : ∀ x, u.head? = some x → c.check x = false) :
    runLen c (w ++ u) = w.length := by
  induction w with
  | nil =>
    cases u with
    | nil => rfl
    | cons y ys =>
      simp only [List.nil_append, runLen, hu y rfl]
      rfl
  | cons x xs ih =>
    simp only [List.cons_append, runLen, if_pos (hw x (by simp))]
    rw [show xs.append u = xs ++ u from rfl, ih (fun z hz => hw z (by simp [hz]))]
    rfl

theorem seqLens_star_forced (c : RCls) (bs : List RAtom) (w u : List Char)
    (hw : ∀ x ∈ w, c.check x = true)
    (hu : ∀ x, u.head? = some x → c.check x = false)
    (hfail : ∀ i, i < w.length → seqLens bs (w.drop i ++ u) = []) :
    seqLens (.star c :: bs) (w ++ u) = (seqLens bs u).map (· + w.length) := by
  show seqLens (.star c :: bs) (w ++ u) = _
  simp only [seqLens, runLen_eq_of c w u hw hu]
  rw [List.range_succ, List.reverse_append, List.flatMap_append]
  simp only [List.reverse_cons, List.reverse_nil, List.nil_append,
    List.flatMap_cons, List.flatMap_nil, List.append_nil]
  have hdrop : List.drop w.length (w ++ u) = u := List.drop_left w u
  rw [hdrop]
  have hrest : (List.range w.length).reverse.flatMap
      (fun k => (seqLens bs ((w ++ u).drop k)).map (· + k)) = [] := by
    rw [List.flatMap_eq_nil_iff]
    intro k hk
    simp only [List.mem_reverse, List.mem_range] at hk
    have : (w ++ u).drop k = w.drop k ++ u := List.drop_append_of_le_length (by omega)
    rw [this, hfail k hk]
    rfl
  rw [hrest, List.append_nil]

theorem head_flatMap_range' (p : Nat → List Nat) :
    ∀ (k a n : Nat), k < n → (∀ j, j < k → p (a + j) = []) →
      p (a + k) ≠ [] →
      ((List.range' a n).flatMap p).head? = (p (a + k)).head? := by
  intro k
  induction k with
  | zero =>
    intro a n hk h0 hne
    cases n with
    | zero => omega
    | succ m =>
      rw [List.range'_succ, List.flatMap_cons]
      cases hpa : p (a + 0) with
      | nil => exact absurd hpa hne
      | cons x t =>
        rw [show a = a + 0 from rfl, hpa]
        rfl
  | succ k ih =>
    intro a n hk h0 hne
    cases n with
    | zero => omega
    | succ m =>
      rw [List.range'_succ, List.flatMap_cons]
      rw [show p a = [] from by simpa using h0 0 (by omega), List.nil_append]
      rw [ih (a + 1) m (by omega) (fun j hj => by
        rw [show a + 1 + j = a + (j + 1) from by omega]
        exact h0 (j + 1) (by omega))
        (by rw [show a + 1 + k = a + (k + 1) from by omega]; exact hne)]
      rw [show a + 1 + k = a + (k + 1) from by omega]

theorem seqLens_lazy_head (c : RCls) (bs : List RAtom) (s : List Char) (k : Nat)
    (hk : k ≤ runLen c s)
    (h0 : ∀ j, j < k → seqLens bs (s.drop j) = [])
    (hne : seqLens bs (s.drop k) ≠ []) :
    (seqLens (.lazyStar c :: bs) s).head? =
      ((seqLens bs (s.drop k)).map (· + k)).head? := by
  show ((List.range (runLen c s + 1)).flatMap
    (fun j => (seqLens bs (s.drop j)).map (· + j))).head? = _
  rw [List.range_eq_range']
  rw [head_flatMap_range' (fun j => (seqLens bs (s.drop j)).map (· + j)) k 0
    (runLen c s + 1) (by omega)
    (fun j hj => by simp only [Nat.zero_add]; rw [h0 j hj]; rfl)
    (by simp only [Nat.zero_add, ne_eq, List.map_eq_nil_iff]; exact hne)]
  simp

/-- Characters allowed in disciplined marker keys and roles: not
whitespace and none of the structural characters of a marker comment. -/
def nameOk (c : Char) : Bool :=
  !isJsWs c && c ≠ '<' && c ≠ '-' && c ≠ ':'

/-- A disciplined key or role: non-empty and made of allowed characters. -/
def goodName (s : String) : Bool :=
  s ≠ "" && s.data.all nameOk

/-- A whitespace-only character list. -/
def wsOnly (w : List Char) : Bool := w.all isJsWs

/-- A character list containing no `<`. -/
def ltFree (l : List Char) : Bool := l.all (· ≠ '<')

/-- The literal text of one marker comment with token `t` and the inner
whitespace actually present. -/
def mkMarker (t w1 w2 : List Char) : List Char :=
  '<' :: '!' :: '-' :: '-' :: (w1 ++ t ++ w2 ++ ['-', '-', '>'])

theorem mkMarker_length (t w1 w2 : List Char) :
    (mkMarker t w1 w2).length = w1.length + t.length + w2.length + 7 := by
  simp [mkMarker]
  omega

theorem tokChars_ne_nil (k r : String) : tokChars k r ≠ [] := by
  unfold tokChars
  cases h : k.data <;> simp

theorem goodName_data (s : String) (h : goodName s = true) :
    ∀ c ∈ s.data, isJsWs c = false ∧ c ≠ '<' ∧ c ≠ '-' ∧ c ≠ ':' := by
  intro c hc
  unfold goodName at h
  simp only [Bool.and_eq_true, List.all_eq_true] at h
  have := h.2 c hc
  unfold nameOk at this
  simp only [Bool.and_eq_true, Bool.not_eq_true', decide_eq_true_eq,
    bne_iff_ne, ne_eq] at this
  tauto

theorem tokChars_disc (k r : String) (hk : goodName k = true)
    (hr : goodName r = true) :
    ∀ c ∈ tokChars k r, isJsWs c = false ∧ c ≠ '-' := by
  intro c hc
  unfold tokChars at hc
  simp only [List.mem_append, List.mem_cons] at hc
  rcases hc with hc | hc | hc
  · have := goodName_data k hk c hc
    tauto
  · subst hc
    refine ⟨by decide, by decide⟩
  · have := goodName_data r hr c hc
    tauto

theorem tokChars_no_lt (k r : String) (hk : goodName k = true)
    (hr : goodName r = true) :
    ∀ c ∈ tokChars k r, c ≠ '<' := by
  intro c hc
  unfold tokChars at hc
  simp only [List.mem_append, List.mem_cons] at hc
  rcases hc with hc | hc | hc
  · exact (goodName_data k hk c hc).2.1
  · subst hc
    decide
  · exact (goodName_data r hr c hc).2.1

theorem append_sep_inj (x : Char) :
    ∀ (a a' b b' : List Char), x ∉ a → x ∉ a' →
      a ++ x :: b = a' ++ x :: b' → a = a' ∧ b = b' := by
  intro a
  induction a with
  | nil =>
    intro a' b b' _ ha' h
    cases a' with
    | nil =>
      simp only [List.nil_append] at h
      injection h with h1 h2
      exact ⟨rfl, h2⟩
    | cons c a2 =>
      simp only [List.nil_append, List.cons_append] at h
      injection h with h1 h2
      exact absurd (h1 ▸ List.mem_cons_self c a2) (h1 ▸ ha')
  | cons c a2 ih =>
    intro a' b b' ha ha' h
    cases a' with
    | nil =>
      simp only [List.cons_append, List.nil_append] at h
      injection h with h1 h2
      exact absurd (by simp [h1]) ha
    | cons c' a2' =>
      simp only [List.cons_append] at h
      injection h with h1 h2
      obtain ⟨e1, e2⟩ := ih a2' b b' (fun hm => ha (by simp [hm]))
        (fun hm => ha' (by simp [hm])) h2
      exact ⟨by rw [h1, e1], e2⟩

theorem tokChars_inj (k r k2 r2 : String) (hk : goodName k = true)
    (hr : goodName r = true) (hk2 : goodName k2 = true)
    (hr2 : goodName r2 = true) (h : tokChars k r = tokChars k2 r2) :
    k = k2 ∧ r = r2 := by
  unfold tokChars at h
  have hck : ':' ∉ k.data := fun hm => (goodName_data k hk ':' hm).2.2.2 rfl
  have hck2 : ':' ∉ k2.data := fun hm => (goodName_data k2 hk2 ':' hm).2.2.2 rfl
  obtain ⟨e1, e2⟩ := append_sep_inj ':' k.data k2.data r.data r2.data hck hck2 h
  exact ⟨String.ext e1, String.ext e2⟩

theorem seqLens_marker_head_ne (t : List Char) (s : List Char)
    (h : ∀ c, s.head? = some c → c ≠ '<') :
    seqLens (markerAtoms t) s = [] := by
  cases s with
  | nil => rfl
  | cons x xs =>
    have hx : ((RCls.lit '<').check x) = false := by
      simp only [RCls.check, decide_eq_false_iff_not]
      exact fun he => h x rfl he.symm
    show seqLens (.once (.lit '<') :: _) (x :: xs) = []
    simp only [seqLens, hx, Bool.false_eq_true, if_false]

/-- Core of the cross-token failure: after `<!--` and the leading
whitespace, a disciplined token pattern cannot match a different
disciplined token followed by whitespace and `-->`. -/
theorem seqLens_token_cross :
    ∀ (t2 t : List Char), t ≠ t2 →
      (∀ c ∈ t, isJsWs c = false ∧ c ≠ '-') →
      (∀ c ∈ t2, isJsWs c = false ∧ c ≠ '-') →
      ∀ (w2 r : List Char), (∀ x ∈ w2, isJsWs x = true) →
      seqLens (litAtoms t2 ++ .star .wsC :: litAtoms ['-', '-', '>'])
        (t ++ (w2 ++ '-' :: '-' :: '>' :: r)) = [] := by
  intro t2
  induction t2 with
  | nil =>
    intro t hne ht _ w2 r hw2
    cases t with
    | nil => exact absurd rfl hne
    | cons c t' =>
      have hc := ht c (by simp)
      simp only [litAtoms, List.map_nil, List.nil_append, List.cons_append]
      show seqLens (.star .wsC :: litAtoms ['-', '-', '>'])
        (c :: (t' ++ (w2 ++ '-' :: '-' :: '>' :: r))) = []
      simp only [seqLens]
      have hrun : runLen .wsC (c :: (t' ++ (w2 ++ '-' :: '-' :: '>' :: r))) = 0 := by
        simp only [runLen, RCls.check, hc.1, Bool.false_eq_true, if_false]
      rw [hrun]
      rw [show List.range (0 + 1) = [0] from rfl]
      simp only [List.reverse_cons, List.reverse_nil,
        List.nil_append, List.flatMap_cons, List.flatMap_nil, List.append_nil,
        List.drop_zero]
      rw [seqLens_litAtoms]
      rw [if_neg ?_]
      · rfl
      · intro htake
        have : c = '-' := by
          have := congrArg List.head? htake
          simp at this
          exact this
        exact hc.2 this
  | cons c2 t2' ih =>
    intro t hne ht ht2 w2 r hw2
    have hc2 := ht2 c2 (by simp)
    cases t with
    | nil =>
      simp only [List.nil_append]
      show seqLens (.once (.lit c2) :: (litAtoms t2' ++ _)) (w2 ++ '-' :: '-' :: '>' :: r) = []
      cases w2 with
      | nil =>
        simp only [List.nil_append, seqLens]
        rw [if_neg ?_]
        intro hch
        simp only [RCls.check, decide_eq_true_eq] at hch
        exact hc2.2 hch
      | cons d w2' =>
        have hd : isJsWs d = true := hw2 d (by simp)
        simp only [List.cons_append, seqLens]
        rw [if_neg ?_]
        intro hch
        simp only [RCls.check, decide_eq_true_eq] at hch
        rw [hch] at hc2
        rw [hd] at hc2
        exact absurd hc2.1 (by simp)
    | cons c t' =>
      simp only [List.cons_append]
      show seqLens (.once (.lit c2) :: (litAtoms t2' ++ _))
        (c :: (t' ++ (w2 ++ '-' :: '-' :: '>' :: r))) = []
      simp only [seqLens]
      by_cases hcc : c2 = c
      · rw [if_pos (by simp [RCls.check, hcc])]
        subst hcc
        rw [ih t' (fun he => hne (by rw [he]))
          (fun x hx => ht x (by simp [hx]))
          (fun x hx => ht2 x (by simp [hx])) w2 r hw2]
        rfl
      · rw [if_neg (by simp [RCls.check]; exact hcc)]

/-- Reduction of a marker pattern against a literal marker text: the
`<!--` literal and the first whitespace star are forced, leaving the
token comparison. -/
theorem seqLens_marker_reduce (t2 t w1 w2 r : List Char)
    (hT : t ≠ []) (ht : ∀ c ∈ t, isJsWs c = false)
    (hT2 : t2 ≠ []) (ht2 : ∀ c ∈ t2, isJsWs c = false)
    (hw1 : ∀ x ∈ w1, isJsWs x = true) :
    seqLens (markerAtoms t2) (mkMarker t w1 w2 ++ r) =
      ((seqLens (litAtoms t2 ++ .star .wsC :: litAtoms ['-', '-', '>'])
          (t ++ (w2 ++ '-' :: '-' :: '>' :: r))).map
        (· + w1.length)).map (· + 4) := by
  have hshape : mkMarker t w1 w2 ++ r =
      '<' :: '!' :: '-' :: '-' :: (w1 ++ (t ++ (w2 ++ '-' :: '-' :: '>' :: r))) := by
    simp [mkMarker]
  rw [hshape, markerAtoms_decomp t2]
  rw [seqLens_litAtoms_append]
  rw [if_pos (by rfl)]
  have hdrop : ('<' :: '!' :: '-' :: '-' ::
      (w1 ++ (t ++ (w2 ++ '-' :: '-' :: '>' :: r)))).drop
        (['<', '!', '-', '-'] : List Char).length =
      w1 ++ (t ++ (w2 ++ '-' :: '-' :: '>' :: r)) := rfl
  rw [hdrop]
  rw [seqLens_star_forced .wsC _ w1 (t ++ (w2 ++ '-' :: '-' :: '>' :: r))
    (fun x hx => by simpa [RCls.check] using hw1 x hx)
    ?_ ?_]
  · have h4 : (['<', '!', '-', '-'] : List Char).length = 4 := rfl
    rw [h4]
  · intro x hx
    cases t with
    | nil => exact absurd rfl hT
    | cons c t' =>
      simp only [List.cons_append, List.head?_cons, Option.some.injEq] at hx
      subst hx
      simpa [RCls.check] using ht c (by simp)
  · intro i hi
    cases t2 with
    | nil => exact absurd rfl hT2
    | cons c2 t2' =>
      rw [seqLens_litAtoms_append]
      rw [if_neg ?_]
      intro htake
      have hdropi : w1.drop i = w1[i] :: w1.drop (i + 1) :=
        List.drop_eq_getElem_cons hi
      rw [hdropi] at htake
      simp only [List.length_cons, List.cons_append, List.take_succ_cons] at htake
      have hhead : w1[i] = c2 := by
        injection htake
      have hws := hw1 w1[i] (List.getElem_mem hi)
      rw [hhead] at hws
      rw [ht2 c2 (by simp)] at hws
      exact absurd hws (by simp)

/-- A marker pattern for a different disciplined token never matches at a
literal marker text. -/
theorem seqLens_marker_cross (t t2 w1 w2 r : List Char)
    (hne : t ≠ t2) (hT : t ≠ []) (hT2 : t2 ≠ [])
    (ht : ∀ c ∈ t, isJsWs c = false ∧ c ≠ '-')
    (ht2 : ∀ c ∈ t2, isJsWs c = false ∧ c ≠ '-')
    (hw1 : ∀ x ∈ w1, isJsWs x = true) (hw2 : ∀ x ∈ w2, isJsWs x = true) :
    seqLens (markerAtoms t2) (mkMarker t w1 w2 ++ r) = [] := by
  rw [seqLens_marker_reduce t2 t w1 w2 r hT (fun c hc => (ht c hc).1) hT2
    (fun c hc => (ht2 c hc).1) hw1]
  rw [seqLens_token_cross t2 t hne ht ht2 w2 r hw2]
  rfl

/-- A marker pattern matches its own literal marker text, consuming
exactly the marker: the whitespace stars are forced byte-for-byte. -/
theorem seqLens_marker_self (t w1 w2 r : List Char)
    (hT : t ≠ [])
    (ht : ∀ c ∈ t, isJsWs c = false ∧ c ≠ '-')
    (hw1 : ∀ x ∈ w1, isJsWs x = true) (hw2 : ∀ x ∈ w2, isJsWs x = true) :
    seqLens (markerAtoms t) (mkMarker t w1 w2 ++ r) =
      [(mkMarker t w1 w2).length] := by
  rw [seqLens_marker_reduce t t w1 w2 r hT (fun c hc => (ht c hc).1) hT
    (fun c hc => (ht c hc).1) hw1]
  rw [seqLens_litAtoms_append, if_pos (List.take_left t _)]
  rw [List.drop_left t _]
  rw [seqLens_star_forced .wsC _ w2 ('-' :: '-' :: '>' :: r)
    (fun x hx => by simpa [RCls.check] using hw2 x hx)
    (fun x hx => by
      simp only [List.head?_cons, Option.some.injEq] at hx
      subst hx
      decide)
    ?_]
  · rw [seqLens_litAtoms]
    rw [if_pos (by rfl)]
    rw [show (['-', '-', '>'] : List Char).length = 3 from rfl]
    rw [mkMarker_length]
    simp only [List.map_cons, List.map_nil, List.cons.injEq, and_true]
    omega
  · intro i hi
    rw [seqLens_litAtoms]
    rw [if_neg ?_]
    intro htake
    have hdropi : w2.drop i = w2[i] :: w2.drop (i + 1) :=
      List.drop_eq_getElem_cons hi
    rw [hdropi] at htake
    simp only [List.cons_append, List.take_succ_cons,
      show (['-', '-', '>'] : List Char).length = 3 from rfl] at htake
    have hhead : w2[i] = '-' := by
      injection htake
    have hws := hw2 w2[i] (List.getElem_mem hi)
    rw [hhead] at hws
    exact absurd hws (by decide)

theorem runLen_anyC (s : List Char) : runLen .anyC s = s.length := by
  induction s with
  | nil => rfl
  | cons x xs ih =>
    simp only [runLen, RCls.check, if_true, ih]
    rfl

/-- The lazily-starred interior ends the block match at the nearest
following end marker: the block pattern consumes the literal start
marker, the interior, and the literal end marker, exactly. -/
theorem matchAt_block_self (tS tE w1 w2 w3 w4 I r : List Char)
    (hTS : tS ≠ []) (hTE : tE ≠ []) (hne : tS ≠ tE)
    (htS : ∀ c ∈ tS, isJsWs c = false ∧ c ≠ '-')
    (htE : ∀ c ∈ tE, isJsWs c = false ∧ c ≠ '-')
    (hw1 : ∀ x ∈ w1, isJsWs x = true) (hw2 : ∀ x ∈ w2, isJsWs x = true)
    (hw3 : ∀ x ∈ w3, isJsWs x = true) (hw4 : ∀ x ∈ w4, isJsWs x = true)
    (hI : ∀ c ∈ I, c ≠ '<') :
    matchAt (blockAtoms tS tE)
      (mkMarker tS w1 w2 ++ (I ++ (mkMarker tE w3 w4 ++ r))) =
      some ((mkMarker tS w1 w2).length + I.length +
        (mkMarker tE w3 w4).length) := by
  unfold matchAt blockAtoms
  rw [seqLens_append_single_left _ _ _ (mkMarker tS w1 w2).length
    (seqLens_marker_self tS w1 w2 (I ++ (mkMarker tE w3 w4 ++ r)) hTS htS hw1 hw2)]
  rw [List.drop_left (mkMarker tS w1 w2) _]
  rw [List.head?_map]
  rw [seqLens_lazy_head .anyC (markerAtoms tE) (I ++ (mkMarker tE w3 w4 ++ r))
    I.length
    (by rw [runLen_anyC]; simp)
    ?_ ?_]
  · rw [List.drop_left I _]
    rw [seqLens_marker_self tE w3 w4 r hTE htE hw3 hw4]
    simp only [List.map_cons, List.map_nil, List.head?_cons]
    rw [show Option.map (fun x => x + (mkMarker tS w1 w2).length)
      (some ((mkMarker tE w3 w4).length + I.length)) =
      some ((mkMarker tE w3 w4).length + I.length + (mkMarker tS w1 w2).length)
      from rfl]
    congr 1
    omega
  · intro j hj
    have hdj : (I ++ (mkMarker tE w3 w4 ++ r)).drop j =
        I.drop j ++ (mkMarker tE w3 w4 ++ r) :=
      List.drop_append_of_le_length (by omega)
    rw [hdj]
    refine seqLens_marker_head_ne tE _ ?_
    intro c hc
    have hdropj : I.drop j = I[j] :: I.drop (j + 1) := List.drop_eq_getElem_cons hj
    rw [hdropj] at hc
    simp only [List.cons_append, List.head?_cons, Option.some.injEq] at hc
    subst hc
    exact hI I[j] (List.getElem_mem hj)
  · rw [List.drop_left I _]
    rw [seqLens_marker_self tE w3 w4 r hTE htE hw3 hw4]
    simp

/-! Fuel insensitivity of the scanners. -/

theorem scanCountF_fuel (as : List RAtom) :
    ∀ (f g : Nat) (s : List Char), s.length < f → s.length < g →
      scanCountF as f s = scanCountF as g s := by
  intro f
  induction f with
  | zero =>
    intro g s hf _
    omega
  | succ f ih =>
    intro g s hf hg
    cases g with
    | zero => omega
    | succ g =>
      cases s with
      | nil => rfl
      | cons c t =>
        show scanCountF as (f + 1) (c :: t) = scanCountF as (g + 1) (c :: t)
        simp only [scanCountF]
        cases hm : matchAt as (c :: t) with
        | none =>
          simp only []
          exact ih g t (by simp at hf; omega) (by simp at hg; omega)
        | some n =>
          simp only []
          rw [ih g ((c :: t).drop (max n 1))
            (by simp only [List.length_drop, List.length_cons] at hf ⊢; omega)
            (by simp only [List.length_drop, List.length_cons] at hg ⊢; omega)]

theorem replaceAllF_fuel (as : List RAtom) (F : List Char → List Char) :
    ∀ (f g : Nat) (s : List Char), s.length < f → s.length < g →
      replaceAllF as F f s = replaceAllF as F g s := by
  intro f
  induction f with
  | zero =>
    intro g s hf _
    omega
  | succ f ih =>
    intro g s hf hg
    cases g with
    | zero => omega
    | succ g =>
      show replaceAllF as F (f + 1) s = replaceAllF as F (g + 1) s
      simp only [replaceAllF]
      cases hm : matchAt as s with
      | none =>
        cases s with
        | nil => rfl
        | cons c t =>
          simp only []
          rw [ih g t (by simp at hf; omega) (by simp at hg; omega)]
      | some n =>
        cases s with
        | nil => rfl
        | cons c t =>
          simp only []
          by_cases hn : n = 0
          · rw [if_pos hn, if_pos hn]
            rw [ih g t (by simp at hf; omega) (by simp at hg; omega)]
          · rw [if_neg hn, if_neg hn]
            rw [ih g ((c :: t).drop n)
              (by simp only [List.length_drop, List.length_cons] at hf ⊢; omega)
              (by simp only [List.length_drop, List.length_cons] at hg ⊢; omega)]

theorem firstMatchF_fuel (as : List RAtom) :
    ∀ (f g : Nat) (s : List Char), s.length < f → s.length < g →
      firstMatchF as f s = firstMatchF as g s := by
  intro f
  induction f with
  | zero =>
    intro g s hf _
    omega
  | succ f ih =>
    intro g s hf hg
    cases g with
    | zero => omega
    | succ g =>
      cases s with
      | nil => rfl
      | cons c t =>
        show firstMatchF as (f + 1) (c :: t) = firstMatchF as (g + 1) (c :: t)
        simp only [firstMatchF]
        cases hm : matchAt as (c :: t) with
        | none =>
          simp only []
          exact ih g t (by simp at hf; omega) (by simp at hg; omega)
        | some n => simp only []

/-! Step and skip lemmas for the scanners. -/

theorem scanCount_cons_none (as : List RAtom) (c : Char) (t : List Char)
    (h : matchAt as (c :: t) = none) :
    scanCount as (c :: t) = scanCount as t := by
  show scanCountF as (t.length + 1 + 1) (c :: t) = _
  simp only [scanCountF, h]
  rfl

theorem scanCount_match_step (as : List RAtom) (c : Char) (t : List Char) (n : Nat)
    (h : matchAt as (c :: t) = some n) (hn : 1 ≤ n) :
    scanCount as (c :: t) = 1 + scanCount as ((c :: t).drop n) := by
  show scanCountF as (t.length + 1 + 1) (c :: t) = _
  simp only [scanCountF]
  rw [h]
  simp only []
  rw [show max n 1 = n from by omega]
  rw [scanCountF_fuel as (t.length + 1) ((c :: t).drop n).length.succ ((c :: t).drop n)
    (by simp only [List.length_drop, List.length_cons]; omega) (by omega)]
  rfl

theorem replaceAllF_succ_cons (as : List RAtom) (F : List Char → List Char)
    (f : Nat) (c : Char) (t : List Char) :
    replaceAllF as F (f + 1) (c :: t) =
      match matchAt as (c :: t) with
      | none => c :: replaceAllF as F f t
      | some n =>
        if n = 0 then F [] ++ c :: replaceAllF as F f t
        else F ((c :: t).take n) ++ replaceAllF as F f ((c :: t).drop n) := rfl

theorem replaceAll_cons_none (as : List RAtom) (F : List Char → List Char)
    (c : Char) (t : List Char) (h : matchAt as (c :: t) = none) :
    replaceAll as F (c :: t) = c :: replaceAll as F t := by
  show replaceAllF as F (t.length + 1 + 1) (c :: t) = _
  rw [replaceAllF_succ_cons, h]
  simp only []
  rfl

theorem replaceAll_match_step (as : List RAtom) (F : List Char → List Char)
    (c : Char) (t : List Char) (n : Nat)
    (h : matchAt as (c :: t) = some n) (hn : 1 ≤ n) :
    replaceAll as F (c :: t) =
      F ((c :: t).take n) ++ replaceAll as F ((c :: t).drop n) := by
  show replaceAllF as F (t.length + 1 + 1) (c :: t) = _
  rw [replaceAllF_succ_cons, h]
  simp only []
  rw [if_neg (by omega)]
  rw [replaceAllF_fuel as F (t.length + 1) ((c :: t).drop n).length.succ ((c :: t).drop n)
    (by simp only [List.length_drop, List.length_cons]; omega) (by omega)]
  rfl

theorem scanCount_skip (as : List RAtom) :
    ∀ (p u : List Char), (∀ i, i < p.length → matchAt as (p.drop i ++ u) = none) →
      scanCount as (p ++ u) = scanCount as u := by
  intro p
  induction p with
  | nil =>
    intro u _
    rfl
  | cons c p2 ih =>
    intro u h
    rw [List.cons_append]
    rw [scanCount_cons_none as c (p2 ++ u) (by simpa using h 0 (by simp))]
    exact ih u (fun i hi => by simpa using h (i + 1) (by simp; omega))

theorem replaceAll_skip (as : List RAtom) (F : List Char → List Char) :
    ∀ (p u : List Char), (∀ i, i < p.length → matchAt as (p.drop i ++ u) = none) →
      replaceAll as F (p ++ u) = p ++ replaceAll as F u := by
  intro p
  induction p with
  | nil =>
    intro u _
    rfl
  | cons c p2 ih =>
    intro u h
    rw [List.cons_append]
    rw [replaceAll_cons_none as F c (p2 ++ u) (by simpa using h 0 (by simp))]
    rw [ih u (fun i hi => by simpa using h (i + 1) (by simp; omega))]
    rfl

theorem firstMatchStr_skip (as : List RAtom) :
    ∀ (p u : List Char), (∀ i, i < p.length → matchAt as (p.drop i ++ u) = none) →
      firstMatchStr as (p ++ u) = firstMatchStr as u := by
  intro p
  induction p with
  | nil =>
    intro u _
    rfl
  | cons c p2 ih =>
    intro u h
    rw [List.cons_append]
    rw [firstMatchStr_cons_none as c (p2 ++ u) (by simpa using h 0 (by simp))]
    exact ih u (fun i hi => by simpa using h (i + 1) (by simp; omega))

/-- A complete marker block for one key: both markers with the inner
whitespace actually present, and the interior text. -/
structure Blk where
  key : String
  w1 : List Char
  w2 : List Char
  body : List Char
  w3 : List Char
  w4 : List Char
deriving DecidableEq

/-- A document segment: marker-free text, or one complete block. -/
inductive Seg where
  | gap (g : List Char)
  | blk (b : Blk)
deriving DecidableEq

/-- The literal text of a block. -/
def blkText (sm em : String) (b : Blk) : List Char :=
  mkMarker (tokChars b.key sm) b.w1 b.w2 ++
    (b.body ++ mkMarker (tokChars b.key em) b.w3 b.w4)

def segText (sm em : String) : Seg → List Char
  | .gap g => g
  | .blk b => blkText sm em b

/-- A document assembled from segments. -/
def docText (sm em : String) (segs : List Seg) : List Char :=
  segs.flatMap (segText sm em)

/-- Discipline of one segment: gaps contain no `<`, blocks have a
disciplined key, whitespace-only inner runs, and a `<`-free interior. -/
def segOk : Seg → Bool
  | .gap g => ltFree g
  | .blk b => goodName b.key && wsOnly b.w1 && wsOnly b.w2 && ltFree b.body &&
      wsOnly b.w3 && wsOnly b.w4

theorem isJsWs_ne_lt (c : Char) (h : isJsWs c = true) : c ≠ '<' := by
  intro he
  subst he
  exact absurd h (by decide)

theorem wsOnly_mem (w : List Char) (h : wsOnly w = true) :
    ∀ x ∈ w, isJsWs x = true := by
  intro x hx
  unfold wsOnly at h
  rw [List.all_eq_true] at h
  exact h x hx

theorem ltFree_mem (l : List Char) (h : ltFree l = true) :
    ∀ x ∈ l, x ≠ '<' := by
  intro x hx
  unfold ltFree at h
  rw [List.all_eq_true] at h
  simpa using h x hx

theorem mkMarker_mem_ne_lt (t w1 w2 : List Char)
    (ht : ∀ c ∈ t, c ≠ '<')
    (hw1 : ∀ x ∈ w1, isJsWs x = true) (hw2 : ∀ x ∈ w2, isJsWs x = true) :
    ∀ i, 1 ≤ i → (hi : i < (mkMarker t w1 w2).length) →
      (mkMarker t w1 w2)[i] ≠ '<' := by
  intro i h1 hi
  have hmem : (mkMarker t w1 w2)[i] ∈
      '!' :: '-' :: '-' :: (w1 ++ t ++ w2 ++ ['-', '-', '>']) := by
    obtain ⟨j, rfl⟩ : ∃ j, i = j + 1 := ⟨i - 1, by omega⟩
    have hj : j < ('!' :: '-' :: '-' ::
        (w1 ++ t ++ w2 ++ ['-', '-', '>'])).length := by
      have := hi
      simp only [mkMarker, List.length_cons] at this ⊢
      omega
    have : (mkMarker t w1 w2)[j + 1] =
        ('!' :: '-' :: '-' :: (w1 ++ t ++ w2 ++ ['-', '-', '>'])).get ⟨j, hj⟩ :=
      rfl
    rw [this]
    exact List.get_mem _ _ _
  revert hmem
  generalize (mkMarker t w1 w2)[i] = x
  intro hx
  rcases List.mem_cons.mp hx with rfl | hx
  · decide
  rcases List.mem_cons.mp hx with rfl | hx
  · decide
  rcases List.mem_cons.mp hx with rfl | hx
  · decide
  rcases List.mem_append.mp hx with hx | hx
  · rcases List.mem_append.mp hx with hx | hx
    · rcases List.mem_append.mp hx with hx | hx
      · exact isJsWs_ne_lt _ (hw1 _ hx)
      · exact ht _ hx
    · exact isJsWs_ne_lt _ (hw2 _ hx)
  · intro he
    subst he
    revert hx
    decide

/-- Pointwise no-match over a marker whose token does not fit: position 0
fails by the cross lemma, later positions do not start with `<`. -/
theorem pointwise_none_marker (as : List RAtom) (t w1 w2 u : List Char)
    (ht : ∀ c ∈ t, c ≠ '<')
    (hw1 : ∀ x ∈ w1, isJsWs x = true) (hw2 : ∀ x ∈ w2, isJsWs x = true)
    (hhead : ∀ s : List Char, (∀ c, s.head? = some c → c ≠ '<') →
      matchAt as s = none)
    (h0 : matchAt as (mkMarker t w1 w2 ++ u) = none) :
    ∀ i, i < (mkMarker t w1 w2).length →
      matchAt as ((mkMarker t w1 w2).drop i ++ u) = none := by
  intro i hi
  cases Nat.eq_zero_or_pos i with
  | inl hz =>
    subst hz
    simpa using h0
  | inr hpos =>
    refine hhead _ ?_
    intro c hc
    rw [List.drop_eq_getElem_cons hi] at hc
    simp only [List.cons_append, List.head?_cons, Option.some.injEq] at hc
    subst hc
    exact mkMarker_mem_ne_lt t w1 w2 ht hw1 hw2 i hpos hi

/-- Pointwise no-match over `<`-free text. -/
theorem pointwise_none_ltFree (as : List RAtom) (g u : List Char)
    (hg : ∀ c ∈ g, c ≠ '<')
    (hhead : ∀ s : List Char, (∀ c, s.head? = some c → c ≠ '<') →
      matchAt as s = none) :
    ∀ i, i < g.length → matchAt as (g.drop i ++ u) = none := by
  intro i hi
  refine hhead _ ?_
  intro c hc
  rw [List.drop_eq_getElem_cons hi] at hc
  simp only [List.cons_append, List.head?_cons, Option.some.injEq] at hc
  subst hc
  exact hg _ (List.getElem_mem hi)

/-- Pointwise no-match distributes over concatenation. -/
theorem pointwise_none_append (as : List RAtom) (p q u : List Char)
    (hp : ∀ i, i < p.length → matchAt as (p.drop i ++ (q ++ u)) = none)
    (hq : ∀ i, i < q.length → matchAt as (q.drop i ++ u) = none) :
    ∀ i, i < (p ++ q).length → matchAt as ((p ++ q).drop i ++ u) = none := by
  intro i hi
  by_cases hip : i < p.length
  · have : (p ++ q).drop i = p.drop i ++ q :=
      List.drop_append_of_le_length (by omega)
    rw [this, List.append_assoc]
    exact hp i hip
  · obtain ⟨j, rfl⟩ : ∃ j, i = p.length + j := ⟨i - p.length, by omega⟩
    have : (p ++ q).drop (p.length + j) = q.drop j := List.drop_append j
    rw [this]
    refine hq j ?_
    simp only [List.length_append] at hi
    omega

theorem matchAt_marker_self (t w1 w2 r : List Char)
    (hT : t ≠ []) (ht : ∀ c ∈ t, isJsWs c = false ∧ c ≠ '-')
    (hw1 : ∀ x ∈ w1, isJsWs x = true) (hw2 : ∀ x ∈ w2, isJsWs x = true) :
    matchAt (markerAtoms t) (mkMarker t w1 w2 ++ r) =
      some (mkMarker t w1 w2).length := by
  unfold matchAt
  rw [seqLens_marker_self t w1 w2 r hT ht hw1 hw2]
  rfl

theorem matchAt_marker_cross (t t2 w1 w2 r : List Char)
    (hne : t ≠ t2) (hT : t ≠ []) (hT2 : t2 ≠ [])
    (ht : ∀ c ∈ t, isJsWs c = false ∧ c ≠ '-')
    (ht2 : ∀ c ∈ t2, isJsWs c = false ∧ c ≠ '-')
    (hw1 : ∀ x ∈ w1, isJsWs x = true) (hw2 : ∀ x ∈ w2, isJsWs x = true) :
    matchAt (markerAtoms t2) (mkMarker t w1 w2 ++ r) = none := by
  unfold matchAt
  rw [seqLens_marker_cross t t2 w1 w2 r hne hT hT2 ht ht2 hw1 hw2]
  rfl

theorem matchAt_marker_head_ne (t : List Char) (s : List Char)
    (h : ∀ c, s.head? = some c → c ≠ '<') :
    matchAt (markerAtoms t) s = none := by
  unfold matchAt
  rw [seqLens_marker_head_ne t s h]
  rfl

theorem matchAt_block_head_ne (t1 t2 : List Char) (s : List Char)
    (h : ∀ c, s.head? = some c → c ≠ '<') :
    matchAt (blockAtoms t1 t2) s = none := by
  unfold matchAt blockAtoms
  rw [seqLens_append_nil_left _ _ _ (seqLens_marker_head_ne t1 s h)]
  rfl

theorem matchAt_block_cross (tS tE t w1 w2 r : List Char)
    (hne : t ≠ tS) (hT : t ≠ []) (hTS : tS ≠ [])
    (ht : ∀ c ∈ t, isJsWs c = false ∧ c ≠ '-')
    (htS : ∀ c ∈ tS, isJsWs c = false ∧ c ≠ '-')
    (hw1 : ∀ x ∈ w1, isJsWs x = true) (hw2 : ∀ x ∈ w2, isJsWs x = true) :
    matchAt (blockAtoms tS tE) (mkMarker t w1 w2 ++ r) = none := by
  unfold matchAt blockAtoms
  rw [seqLens_append_nil_left _ _ _
    (seqLens_marker_cross t tS w1 w2 r hne hT hTS ht htS hw1 hw2)]
  rfl

theorem matchAt_nil_ge_one (as : List RAtom) (n : Nat)
    (h : matchAt as [] = some n) : n = 0 := by
  have := mem_seqLens_le as [] n (matchAt_mem as [] n h)
  simpa using this

theorem scanCount_match_step2 (as : List RAtom) (s : List Char) (n : Nat)
    (h : matchAt as s = some n) (hn : 1 ≤ n) :
    scanCount as s = 1 + scanCount as (s.drop n) := by
  cases s with
  | nil => exact absurd (matchAt_nil_ge_one as n h) (by omega)
  | cons c t => exact scanCount_match_step as c t n h hn

theorem replaceAll_match_step2 (as : List RAtom) (F : List Char → List Char)
    (s : List Char) (n : Nat) (h : matchAt as s = some n) (hn : 1 ≤ n) :
    replaceAll as F s = F (s.take n) ++ replaceAll as F (s.drop n) := by
  cases s with
  | nil => exact absurd (matchAt_nil_ge_one as n h) (by omega)
  | cons c t => exact replaceAll_match_step as F c t n h hn

theorem firstMatchStr_skip2 (as : List RAtom) (p u : List Char)
    (hp : ∀ i, i < p.length → matchAt as (p.drop i ++ u) = none) :
    firstMatchStr as (p ++ u) = firstMatchStr as u :=
  firstMatchStr_skip as p u hp

theorem segOk_blk (b : Blk) (h : segOk (.blk b) = true) :
    goodName b.key = true ∧ wsOnly b.w1 = true ∧ wsOnly b.w2 = true ∧
    ltFree b.body = true ∧ wsOnly b.w3 = true ∧ wsOnly b.w4 = true := by
  simpa [segOk, Bool.and_eq_true, and_assoc] using h

/-- Pointwise no-match across a whole block, given failure at both of its
marker heads. -/
theorem pointwise_none_blk (as : List RAtom) (sm em : String) (b : Blk)
    (u : List Char) (hok : segOk (.blk b) = true)
    (hsm : goodName sm = true) (hem : goodName em = true)
    (hhead : ∀ s : List Char, (∀ c, s.head? = some c → c ≠ '<') →
      matchAt as s = none)
    (hS : matchAt as (blkText sm em b ++ u) = none)
    (hE : matchAt as (mkMarker (tokChars b.key em) b.w3 b.w4 ++ u) = none) :
    ∀ i, i < (blkText sm em b).length →
      matchAt as ((blkText sm em b).drop i ++ u) = none := by
  obtain ⟨hkey, h1, h2, hbody, h3, h4⟩ := segOk_blk b hok
  unfold blkText
  refine pointwise_none_append as _ _ u ?_ ?_
  · refine pointwise_none_marker as _ b.w1 b.w2 _
      (tokChars_no_lt b.key sm hkey hsm) (wsOnly_mem _ h1) (wsOnly_mem _ h2)
      hhead ?_
    rw [← List.append_assoc]
    exact hS
  · refine pointwise_none_append as _ _ u ?_ ?_
    · exact pointwise_none_ltFree as b.body _ (ltFree_mem _ hbody) hhead
    · exact pointwise_none_marker as _ b.w3 b.w4 u
        (tokChars_no_lt b.key em hkey hem) (wsOnly_mem _ h3) (wsOnly_mem _ h4)
        hhead hE

/-- Contribution of one segment to the number of matches of the marker
pattern for token `t`. -/
def segMarks (sm em : String) (t : List Char) : Seg → Nat
  | .gap _ => 0
  | .blk b => (if tokChars b.key sm = t then 1 else 0) +
      (if tokChars b.key em = t then 1 else 0)

/-- Counting matches of a disciplined marker pattern over a disciplined
segment document: exactly the markers whose token equals `t` are hit. -/
theorem scanCount_marker_doc (sm em : String) (t : List Char) :
    ∀ segs : List Seg, goodName sm = true → goodName em = true → sm ≠ em →
      t ≠ [] → (∀ c ∈ t, isJsWs c = false ∧ c ≠ '-') →
      (∀ seg ∈ segs, segOk seg = true) →
      scanCount (markerAtoms t) (docText sm em segs) =
        (segs.map (segMarks sm em t)).sum := by
  intro segs
  induction segs with
  | nil =>
    intro _ _ _ _ _ _
    show scanCountF (markerAtoms t) 1 [] = 0
    unfold scanCountF
    rw [matchAt_marker_head_ne t [] (by simp)]
  | cons seg rest ih =>
    intro hsm hem hsmem hT ht hsegs
    have hrest : ∀ s ∈ rest, segOk s = true :=
      fun s hs => hsegs s (List.mem_cons_of_mem _ hs)
    have hih := ih hsm hem hsmem hT ht hrest
    rw [show docText sm em (seg :: rest) =
      segText sm em seg ++ docText sm em rest from by simp [docText]]
    cases seg with
    | gap g =>
      have hok := hsegs (.gap g) (by simp)
      rw [show segText sm em (.gap g) = g from rfl]
      rw [scanCount_skip (markerAtoms t) g (docText sm em rest)
        (pointwise_none_ltFree _ g _ (ltFree_mem g hok)
          (matchAt_marker_head_ne t))]
      rw [hih]
      simp [segMarks]
    | blk b =>
      have hok := hsegs (.blk b) (by simp)
      obtain ⟨hkey, h1, h2, hbody, h3, h4⟩ := segOk_blk b hok
      have hTS : tokChars b.key sm ≠ [] := tokChars_ne_nil b.key sm
      have hTE : tokChars b.key em ≠ [] := tokChars_ne_nil b.key em
      have hdS : ∀ c ∈ tokChars b.key sm, isJsWs c = false ∧ c ≠ '-' :=
        tokChars_disc b.key sm hkey hsm
      have hdE : ∀ c ∈ tokChars b.key em, isJsWs c = false ∧ c ≠ '-' :=
        tokChars_disc b.key em hkey hem
      have hshape : segText sm em (.blk b) ++ docText sm em rest =
          mkMarker (tokChars b.key sm) b.w1 b.w2 ++
            (b.body ++ (mkMarker (tokChars b.key em) b.w3 b.w4 ++
              docText sm em rest)) := by
        simp [segText, blkText, List.append_assoc]
      rw [hshape]
      have hEpart : scanCount (markerAtoms t)
          (mkMarker (tokChars b.key em) b.w3 b.w4 ++ docText sm em rest) =
          (if tokChars b.key em = t then 1 else 0) +
            (rest.map (segMarks sm em t)).sum := by
        by_cases he : tokChars b.key em = t
        · rw [if_pos he, ← he]
          rw [scanCount_match_step2 (markerAtoms (tokChars b.key em)) _
            (mkMarker (tokChars b.key em) b.w3 b.w4).length
            (matchAt_marker_self _ b.w3 b.w4 _ hTE hdE (wsOnly_mem _ h3)
              (wsOnly_mem _ h4))
            (by rw [mkMarker_length]; omega)]
          rw [List.drop_left]
          rw [he]
          rw [hih]
        · rw [if_neg he, Nat.zero_add]
          rw [scanCount_skip (markerAtoms t) _ (docText sm em rest)
            (pointwise_none_marker _ _ b.w3 b.w4 _
              (tokChars_no_lt b.key em hkey hem) (wsOnly_mem _ h3)
              (wsOnly_mem _ h4) (matchAt_marker_head_ne t)
              (matchAt_marker_cross _ t b.w3 b.w4 _
                (fun hx => he hx) hTE hT hdE ht (wsOnly_mem _ h3)
                (wsOnly_mem _ h4)))]
          exact hih
      have hBodyE : scanCount (markerAtoms t)
          (b.body ++ (mkMarker (tokChars b.key em) b.w3 b.w4 ++
            docText sm em rest)) =
          (if tokChars b.key em = t then 1 else 0) +
            (rest.map (segMarks sm em t)).sum := by
        rw [scanCount_skip (markerAtoms t) b.body _
          (pointwise_none_ltFree _ b.body _ (ltFree_mem _ hbody)
            (matchAt_marker_head_ne t))]
        exact hEpart
      by_cases hs : tokChars b.key sm = t
      · rw [← hs] at hBodyE ⊢
        rw [scanCount_match_step2 (markerAtoms (tokChars b.key sm)) _
          (mkMarker (tokChars b.key sm) b.w1 b.w2).length
          (matchAt_marker_self _ b.w1 b.w2 _ hTS hdS (wsOnly_mem _ h1)
            (wsOnly_mem _ h2))
          (by rw [mkMarker_length]; omega)]
        rw [List.drop_left]
        rw [hBodyE]
        simp only [List.map_cons, List.sum_cons, segMarks, if_true]
        by_cases he : tokChars b.key em = tokChars b.key sm
        · exact absurd (tokChars_inj b.key em b.key sm hkey hem hkey hsm he).2
            (Ne.symm hsmem)
        · simp only [if_neg he]
          omega
      · rw [scanCount_skip (markerAtoms t) _ _
          (pointwise_none_marker _ _ b.w1 b.w2 _
            (tokChars_no_lt b.key sm hkey hsm) (wsOnly_mem _ h1)
            (wsOnly_mem _ h2) (matchAt_marker_head_ne t)
            (matchAt_marker_cross _ t b.w1 b.w2 _
              (fun hx => hs hx) hTS hT hdS ht (wsOnly_mem _ h1)
              (wsOnly_mem _ h2)))]
        rw [hBodyE]
        simp only [List.map_cons, List.sum_cons, segMarks]
        rw [if_neg hs]
        omega

/-- Effect of one key pass on one segment: the interiors of the key's
blocks become newline, inserted text, newline. -/
def setBody (k : String) (ins : List Char) : Seg → Seg
  | .gap g => .gap g
  | .blk b =>
    if b.key = k then .blk { b with body := '\n' :: (ins ++ ['\n']) }
    else .blk b

theorem blkText_length (sm em : String) (b : Blk) :
    (blkText sm em b).length =
      (mkMarker (tokChars b.key sm) b.w1 b.w2).length + b.body.length +
        (mkMarker (tokChars b.key em) b.w3 b.w4).length := by
  simp [blkText]
  omega

/-- The replacement text computed for a matched block: both markers are
reproduced byte-for-byte around the inserted interior. -/
theorem blockReplacement_blk (sm em k : String) (ins : List Char) (b : Blk)
    (hok : segOk (.blk b) = true) (hsm : goodName sm = true)
    (hem : goodName em = true) (hsmem : sm ≠ em) (hbk : b.key = k) :
    blockReplacement (markerAtoms (tokChars k sm)) (markerAtoms (tokChars k em))
        ins (blkText sm em b) =
      blkText sm em { b with body := '\n' :: (ins ++ ['\n']) } := by
  obtain ⟨hkey, h1, h2, hbody, h3, h4⟩ := segOk_blk b hok
  subst hbk
  have hTS : tokChars b.key sm ≠ [] := tokChars_ne_nil b.key sm
  have hTE : tokChars b.key em ≠ [] := tokChars_ne_nil b.key em
  have hdS : ∀ c ∈ tokChars b.key sm, isJsWs c = false ∧ c ≠ '-' :=
    tokChars_disc b.key sm hkey hsm
  have hdE : ∀ c ∈ tokChars b.key em, isJsWs c = false ∧ c ≠ '-' :=
    tokChars_disc b.key em hkey hem
  have hSE : tokChars b.key em ≠ tokChars b.key sm := by
    intro he
    exact absurd (tokChars_inj b.key em b.key sm hkey hem hkey hsm he).2
      (Ne.symm hsmem)
  have hfS : firstMatchStr (markerAtoms (tokChars b.key sm)) (blkText sm em b) =
      some (mkMarker (tokChars b.key sm) b.w1 b.w2) := by
    rw [show blkText sm em b = mkMarker (tokChars b.key sm) b.w1 b.w2 ++
      (b.body ++ mkMarker (tokChars b.key em) b.w3 b.w4) from rfl]
    rw [firstMatchStr_at_zero _ _ (mkMarker (tokChars b.key sm) b.w1 b.w2).length
      (matchAt_marker_self _ b.w1 b.w2 _ hTS hdS (wsOnly_mem _ h1)
        (wsOnly_mem _ h2))]
    rw [List.take_left]
  have hfE : firstMatchStr (markerAtoms (tokChars b.key em)) (blkText sm em b) =
      some (mkMarker (tokChars b.key em) b.w3 b.w4) := by
    rw [show blkText sm em b = (mkMarker (tokChars b.key sm) b.w1 b.w2 ++ b.body)
      ++ mkMarker (tokChars b.key em) b.w3 b.w4 from by
        simp [blkText, List.append_assoc]]
    rw [firstMatchStr_skip (markerAtoms (tokChars b.key em)) _ _ ?_]
    · rw [show mkMarker (tokChars b.key em) b.w3 b.w4 =
        mkMarker (tokChars b.key em) b.w3 b.w4 ++ [] from by simp]
      rw [firstMatchStr_at_zero _ _ (mkMarker (tokChars b.key em) b.w3 b.w4).length
        (matchAt_marker_self _ b.w3 b.w4 _ hTE hdE (wsOnly_mem _ h3)
          (wsOnly_mem _ h4))]
      rw [List.take_left]
      simp
    · refine pointwise_none_append _ _ _ _ ?_ ?_
      · refine pointwise_none_marker _ _ b.w1 b.w2 _
          (tokChars_no_lt b.key sm hkey hsm) (wsOnly_mem _ h1) (wsOnly_mem _ h2)
          (matchAt_marker_head_ne _) ?_
        exact matchAt_marker_cross _ _ b.w1 b.w2 _ (fun he => hSE he.symm)
          hTS hTE hdS hdE (wsOnly_mem _ h1) (wsOnly_mem _ h2)
      · exact pointwise_none_ltFree _ b.body _ (ltFree_mem _ hbody)
          (matchAt_marker_head_ne _)
  unfold blockReplacement
  rw [hfS, hfE]
  simp [blkText]

/-- `replaceAll` with the block pattern over a disciplined segment
document rewrites precisely the key's blocks, leaving all other
characters in place. -/
theorem replaceAll_block_doc (sm em k : String) (ins : List Char) :
    ∀ segs : List Seg, goodName sm = true → goodName em = true → sm ≠ em →
      goodName k = true → (∀ seg ∈ segs, segOk seg = true) →
      replaceAll (blockAtoms (tokChars k sm) (tokChars k em))
          (blockReplacement (markerAtoms (tokChars k sm))
            (markerAtoms (tokChars k em)) ins)
          (docText sm em segs) =
        docText sm em (segs.map (setBody k ins)) := by
  intro segs
  induction segs with
  | nil =>
    intro _ _ _ _ _
    show replaceAllF _ _ 1 [] = []
    unfold replaceAllF
    rw [matchAt_block_head_ne _ _ [] (by simp)]
  | cons seg rest ih =>
    intro hsm hem hsmem hk hsegs
    have hrest : ∀ s ∈ rest, segOk s = true :=
      fun s hs => hsegs s (List.mem_cons_of_mem _ hs)
    have hih := ih hsm hem hsmem hk hrest
    have hTS : tokChars k sm ≠ [] := tokChars_ne_nil k sm
    have hTE : tokChars k em ≠ [] := tokChars_ne_nil k em
    have hdS : ∀ c ∈ tokChars k sm, isJsWs c = false ∧ c ≠ '-' :=
      tokChars_disc k sm hk hsm
    have hdE : ∀ c ∈ tokChars k em, isJsWs c = false ∧ c ≠ '-' :=
      tokChars_disc k em hk hem
    have hSE : tokChars k sm ≠ tokChars k em := by
      intro he
      exact absurd (tokChars_inj k sm k em hk hsm hk hem he).2 hsmem
    rw [show docText sm em (seg :: rest) =
      segText sm em seg ++ docText sm em rest from by simp [docText]]
    rw [show (seg :: rest).map (setBody k ins) =
      setBody k ins seg :: rest.map (setBody k ins) from rfl]
    rw [show docText sm em (setBody k ins seg :: rest.map (setBody k ins)) =
      segText sm em (setBody k ins seg) ++
        docText sm em (rest.map (setBody k ins)) from by simp [docText]]
    cases seg with
    | gap g =>
      have hok := hsegs (.gap g) (by simp)
      rw [show segText sm em (.gap g) = g from rfl]
      rw [replaceAll_skip _ _ g (docText sm em rest)
        (pointwise_none_ltFree _ g _ (ltFree_mem g hok)
          (matchAt_block_head_ne _ _))]
      rw [hih]
      rfl
    | blk b =>
      have hok := hsegs (.blk b) (by simp)
      obtain ⟨hkey, h1, h2, hbody, h3, h4⟩ := segOk_blk b hok
      by_cases hbk : b.key = k
      · subst hbk
        have hself : matchAt (blockAtoms (tokChars b.key sm) (tokChars b.key em))
            (segText sm em (.blk b) ++ docText sm em rest) =
            some ((mkMarker (tokChars b.key sm) b.w1 b.w2).length +
              b.body.length +
              (mkMarker (tokChars b.key em) b.w3 b.w4).length) := by
          rw [show segText sm em (.blk b) ++ docText sm em rest =
            mkMarker (tokChars b.key sm) b.w1 b.w2 ++ (b.body ++
              (mkMarker (tokChars b.key em) b.w3 b.w4 ++ docText sm em rest))
            from by simp [segText, blkText, List.append_assoc]]
          exact matchAt_block_self _ _ b.w1 b.w2 b.w3 b.w4 b.body _
            hTS hTE hSE hdS hdE (wsOnly_mem _ h1) (wsOnly_mem _ h2)
            (wsOnly_mem _ h3) (wsOnly_mem _ h4) (ltFree_mem _ hbody)
        rw [replaceAll_match_step2 _ _ _ _ hself
          (by rw [mkMarker_length]; omega)]
        have hlen : (mkMarker (tokChars b.key sm) b.w1 b.w2).length +
            b.body.length +
            (mkMarker (tokChars b.key em) b.w3 b.w4).length =
            (segText sm em (.blk b)).length := by
          rw [show segText sm em (.blk b) = blkText sm em b from rfl]
          rw [blkText_length]
        rw [hlen, List.take_left, List.drop_left]
        rw [hih]
        rw [show segText sm em (.blk b) = blkText sm em b from rfl]
        rw [blockReplacement_blk sm em b.key ins b hok hsm hem hsmem rfl]
        rw [show setBody b.key ins (.blk b) =
          .blk { b with body := '\n' :: (ins ++ ['\n']) } from by
          simp [setBody]]
        rfl
      · have hcrossS : matchAt (blockAtoms (tokChars k sm) (tokChars k em))
            (blkText sm em b ++ docText sm em rest) = none := by
          rw [show blkText sm em b ++ docText sm em rest =
            mkMarker (tokChars b.key sm) b.w1 b.w2 ++ ((b.body ++
              mkMarker (tokChars b.key em) b.w3 b.w4) ++ docText sm em rest)
            from by simp [blkText, List.append_assoc]]
          refine matchAt_block_cross _ _ _ b.w1 b.w2 _ ?_
            (tokChars_ne_nil b.key sm) hTS (tokChars_disc b.key sm hkey hsm)
            hdS (wsOnly_mem _ h1) (wsOnly_mem _ h2)
          intro he
          exact hbk (tokChars_inj b.key sm k sm hkey hsm hk hsm he).1
        have hcrossE : matchAt (blockAtoms (tokChars k sm) (tokChars k em))
            (mkMarker (tokChars b.key em) b.w3 b.w4 ++ docText sm em rest) =
            none := by
          refine matchAt_block_cross _ _ _ b.w3 b.w4 _ ?_
            (tokChars_ne_nil b.key em) hTS (tokChars_disc b.key em hkey hem)
            hdS (wsOnly_mem _ h3) (wsOnly_mem _ h4)
          intro he
          exact hbk (tokChars_inj b.key em k sm hkey hem hk hsm he).1
        rw [show segText sm em (.blk b) = blkText sm em b from rfl]
        rw [replaceAll_skip _ _ (blkText sm em b) (docText sm em rest)
          (pointwise_none_blk _ sm em b _ hok hsm hem
            (matchAt_block_head_ne _ _) hcrossS hcrossE)]
        rw [hih]
        rw [show setBody k ins (.blk b) = .blk b from by simp [setBody, hbk]]
        rfl

/-- With escaping enabled the rendered value never contains a raw `<`. -/
theorem renderValue_ltFree (v : String) :
    ltFree (renderValue false v).data = true := by
  unfold renderValue
  rw [if_neg (by simp)]
  unfold ltFree
  rw [List.all_eq_true]
  intro c hc
  rw [escapeHtml_data] at hc
  simp only [decide_eq_true_eq]
  intro he
  subst he
  exact absurd hc (flatMap_escapeChars_no_raw v.data).1

/-- One pass of the key loop over a disciplined segment document: the
marker counts agree, and the key's blocks are normalised. -/
theorem processKey_structured (sm em k : String) (ar : Bool) (v : String)
    (segs : List Seg)
    (hsm : goodName sm = true) (hem : goodName em = true) (hsmem : sm ≠ em)
    (hk : goodName k = true) (hks : k ≠ sm) (hke : k ≠ em)
    (hsegs : ∀ seg ∈ segs, segOk seg = true) :
    processKey sm em ar (docText sm em segs) k (some v) =
      .ok (docText sm em (segs.map (setBody k (renderValue ar v).data))) := by
  have hres : ¬(k = sm ∨ k = em) := by tauto
  have hcnt : scanCount (compiledAtoms (startPattern k sm)) (docText sm em segs) =
      scanCount (compiledAtoms (endPattern k em)) (docText sm em segs) := by
    rw [compiledAtoms_startPattern, compiledAtoms_endPattern]
    rw [scanCount_marker_doc sm em (tokChars k sm) segs hsm hem hsmem
      (tokChars_ne_nil k sm) (tokChars_disc k sm hk hsm) hsegs]
    rw [scanCount_marker_doc sm em (tokChars k em) segs hsm hem hsmem
      (tokChars_ne_nil k em) (tokChars_disc k em hk hem) hsegs]
    congr 1
    refine List.map_congr_left ?_
    intro seg hseg
    cases seg with
    | gap g => rfl
    | blk b =>
      obtain ⟨hkey, _, _, _, _, _⟩ := segOk_blk b (hsegs _ hseg)
      show (if tokChars b.key sm = tokChars k sm then 1 else 0) +
          (if tokChars b.key em = tokChars k sm then 1 else 0) =
        (if tokChars b.key sm = tokChars k em then 1 else 0) +
          (if tokChars b.key em = tokChars k em then 1 else 0)
      by_cases hbk : b.key = k
      · subst hbk
        have hES : tokChars b.key em ≠ tokChars b.key sm := fun he =>
          absurd (tokChars_inj b.key em b.key sm hkey hem hkey hsm he).2
            (Ne.symm hsmem)
        have hSE : tokChars b.key sm ≠ tokChars b.key em := fun he =>
          absurd (tokChars_inj b.key sm b.key em hkey hsm hkey hem he).2 hsmem
        simp [hES, hSE]
      · have n1 : tokChars b.key sm ≠ tokChars k sm := fun he =>
          hbk (tokChars_inj b.key sm k sm hkey hsm hk hsm he).1
        have n2 : tokChars b.key em ≠ tokChars k sm := fun he =>
          hbk (tokChars_inj b.key em k sm hkey hem hk hsm he).1
        have n3 : tokChars b.key sm ≠ tokChars k em := fun he =>
          hbk (tokChars_inj b.key sm k em hkey hsm hk hem he).1
        have n4 : tokChars b.key em ≠ tokChars k em := fun he =>
          hbk (tokChars_inj b.key em k em hkey hem hk hem he).1
        simp [n1, n2, n3, n4]
  rw [show processKey sm em ar (docText sm em segs) k (some v) =
    .ok (replaceAll (compiledAtoms (blockPattern k sm em))
      (blockReplacement (compiledAtoms (startPattern k sm))
        (compiledAtoms (endPattern k em)) (renderValue ar v).data)
      (docText sm em segs)) from by simp [processKey, hres, hcnt]]
  rw [compiledAtoms_blockPattern, compiledAtoms_startPattern,
    compiledAtoms_endPattern]
  rw [replaceAll_block_doc sm em k (renderValue ar v).data segs hsm hem hsmem
    hk hsegs]

/-- Effect of one mapping entry on the segment form: a null/undefined
value changes nothing, a present value normalises the key's blocks. -/
def stepSeg (ar : Bool) (kv : String × Option String) (segs : List Seg) :
    List Seg :=
  match kv.2 with
  | none => segs
  | some v => segs.map (setBody kv.1 (renderValue ar v).data)

/-- Effect of the whole key loop on the segment form. -/
def normAll (ar : Bool) (entries : List (String × Option String))
    (segs : List Seg) : List Seg :=
  entries.foldl (fun ss kv => stepSeg ar kv ss) segs

theorem segOk_setBody (k : String) (ins : List Char) (seg : Seg)
    (h : segOk seg = true) (hins : ltFree ins = true) :
    segOk (setBody k ins seg) = true := by
  cases seg with
  | gap g => exact h
  | blk b =>
    by_cases hbk : b.key = k
    · rw [show setBody k ins (.blk b) =
        .blk { b with body := '\n' :: (ins ++ ['\n']) } from by
        simp [setBody, hbk]]
      obtain ⟨hkey, h1, h2, hbody, h3, h4⟩ := segOk_blk b h
      have hbody2 : ltFree ('\n' :: (ins ++ ['\n'])) = true := by
        unfold ltFree at hins ⊢
        rw [List.all_eq_true] at hins ⊢
        intro c hc
        simp only [List.mem_cons, List.mem_append, List.mem_singleton] at hc
        rcases hc with rfl | hc | hc
        · decide
        · exact hins c hc
        · rcases hc with rfl | hc
          · decide
          · simp at hc
      simp [segOk, hkey, h1, h2, hbody2, h3, h4]
    · rw [show setBody k ins (.blk b) = .blk b from by simp [setBody, hbk]]
      exact h

theorem segOk_stepSeg (ar : Bool) (kv : String × Option String)
    (segs : List Seg) (h : ∀ seg ∈ segs, segOk seg = true)
    (hins : ∀ w, kv.2 = some w → ltFree (renderValue ar w).data = true) :
    ∀ seg ∈ stepSeg ar kv segs, segOk seg = true := by
  unfold stepSeg
  cases hv : kv.2 with
  | none => exact h
  | some w =>
    intro seg hseg
    rw [List.mem_map] at hseg
    obtain ⟨s0, hs0, rfl⟩ := hseg
    exact segOk_setBody kv.1 _ s0 (h s0 hs0) (hins w hv)

/-- The whole key loop over a disciplined segment document succeeds and
produces the normalised segment document. -/
theorem processEntries_structured (sm em : String) (ar : Bool) :
    ∀ (entries : List (String × Option String)) (segs : List Seg),
      goodName sm = true → goodName em = true → sm ≠ em →
      (∀ p ∈ entries, goodName p.1 = true ∧ p.1 ≠ sm ∧ p.1 ≠ em) →
      (∀ p ∈ entries, ∀ w, p.2 = some w →
        ltFree (renderValue ar w).data = true) →
      (∀ seg ∈ segs, segOk seg = true) →
      processEntries sm em ar entries (docText sm em segs) =
        .ok (docText sm em (normAll ar entries segs)) := by
  intro entries
  induction entries with
  | nil =>
    intro segs _ _ _ _ _ _
    exact processEntries_nil sm em ar _
  | cons kv rest ih =>
    intro segs hsm hem hsmem hkeys hvals hsegs
    obtain ⟨hk, hks, hke⟩ := hkeys kv (by simp)
    have hkeys2 : ∀ p ∈ rest, goodName p.1 = true ∧ p.1 ≠ sm ∧ p.1 ≠ em :=
      fun p hp => hkeys p (List.mem_cons_of_mem _ hp)
    have hvals2 : ∀ p ∈ rest, ∀ w, p.2 = some w →
        ltFree (renderValue ar w).data = true :=
      fun p hp => hvals p (List.mem_cons_of_mem _ hp)
    rw [processEntries_cons]
    have hnorm : normAll ar (kv :: rest) segs =
        normAll ar rest (stepSeg ar kv segs) := rfl
    rw [hnorm]
    have hsegs2 : ∀ seg ∈ stepSeg ar kv segs, segOk seg = true :=
      segOk_stepSeg ar kv segs hsegs (hvals kv (by simp))
    cases hv : kv.2 with
    | none =>
      have hres : ¬(kv.1 = sm ∨ kv.1 = em) := by
        intro hcon
        rcases hcon with h | h
        · exact absurd h hks
        · exact absurd h hke
      have hstep : processKey sm em ar (docText sm em segs) kv.1 none =
          .ok (docText sm em segs) := by
        simp [processKey, hres]
      rw [hstep]
      rw [show stepSeg ar kv segs = segs from by simp [stepSeg, hv]] at hsegs2 ⊢
      rw [show ((.ok (docText sm em segs) : Except RewriteError (List Char)) >>=
        processEntries sm em ar rest) =
        processEntries sm em ar rest (docText sm em segs) from rfl]
      exact ih segs hsm hem hsmem hkeys2 hvals2 hsegs
    | some w =>
      rw [processKey_structured sm em kv.1 ar w segs hsm hem hsmem hk hks hke
        hsegs]
      rw [show stepSeg ar kv segs =
        segs.map (setBody kv.1 (renderValue ar w).data) from by
        simp [stepSeg, hv]] at hsegs2 ⊢
      rw [show ((.ok (docText sm em
          (segs.map (setBody kv.1 (renderValue ar w).data))) :
            Except RewriteError (List Char)) >>=
        processEntries sm em ar rest) =
        processEntries sm em ar rest (docText sm em
          (segs.map (setBody kv.1 (renderValue ar w).data))) from rfl]
      exact ih _ hsm hem hsmem hkeys2 hvals2 hsegs2

theorem setBody_key (k : String) (ins : List Char) (seg : Seg) (b : Blk)
    (h : setBody k ins seg = .blk b) : ∃ b0, seg = .blk b0 ∧ b0.key = b.key := by
  cases seg with
  | gap g => simp [setBody] at h
  | blk b0 =>
    refine ⟨b0, rfl, ?_⟩
    by_cases hbk : b0.key = k
    · rw [show setBody k ins (.blk b0) =
        .blk { b0 with body := '\n' :: (ins ++ ['\n']) } from by
        simp [setBody, hbk]] at h
      injection h with h2
      rw [← h2]
    · rw [show setBody k ins (.blk b0) = .blk b0 from by
        simp [setBody, hbk]] at h
      injection h with h2
      rw [← h2]

theorem setBody_idem (k : String) (ins : List Char) (seg : Seg) :
    setBody k ins (setBody k ins seg) = setBody k ins seg := by
  cases seg with
  | gap g => rfl
  | blk b =>
    by_cases hbk : b.key = k
    · rw [show setBody k ins (.blk b) =
        .blk { b with body := '\n' :: (ins ++ ['\n']) } from by
        simp [setBody, hbk]]
      simp [setBody, hbk]
    · rw [show setBody k ins (.blk b) = .blk b from by simp [setBody, hbk]]
      simp [setBody, hbk]

theorem setBody_comm (k k2 : String) (ins ins2 : List Char) (seg : Seg)
    (hne : k ≠ k2) :
    setBody k ins (setBody k2 ins2 seg) = setBody k2 ins2 (setBody k ins seg) := by
  cases seg with
  | gap g => rfl
  | blk b =>
    by_cases hb2 : b.key = k2
    · have hb1 : b.key ≠ k := by rw [hb2]; exact fun h => hne h.symm
      rw [show setBody k2 ins2 (.blk b) =
        .blk { b with body := '\n' :: (ins2 ++ ['\n']) } from by
        simp [setBody, hb2]]
      rw [show setBody k ins (.blk b) = .blk b from by simp [setBody, hb1]]
      rw [show setBody k ins (.blk { b with body := '\n' :: (ins2 ++ ['\n']) }) =
        .blk { b with body := '\n' :: (ins2 ++ ['\n']) } from by
        simp [setBody, hb1]]
      simp [setBody, hb2]
    · by_cases hb1 : b.key = k
      · rw [show setBody k2 ins2 (.blk b) = .blk b from by simp [setBody, hb2]]
        rw [show setBody k ins (.blk b) =
          .blk { b with body := '\n' :: (ins ++ ['\n']) } from by
          simp [setBody, hb1]]
        simp [setBody, hb2]
      · rw [show setBody k2 ins2 (.blk b) = .blk b from by simp [setBody, hb2]]
        rw [show setBody k ins (.blk b) = .blk b from by simp [setBody, hb1]]
        rw [show setBody k2 ins2 (.blk b) = .blk b from by simp [setBody, hb2]]

theorem stepSeg_idem (ar : Bool) (kv : String × Option String)
    (segs : List Seg) :
    stepSeg ar kv (stepSeg ar kv segs) = stepSeg ar kv segs := by
  cases hv : kv.2 with
  | none => simp [stepSeg, hv]
  | some v =>
    simp only [stepSeg, hv]
    rw [List.map_map]
    refine List.map_congr_left ?_
    intro seg _
    exact setBody_idem kv.1 _ seg

theorem stepSeg_comm (ar : Bool) (kv kv2 : String × Option String)
    (segs : List Seg) (hne : kv.1 ≠ kv2.1) :
    stepSeg ar kv (stepSeg ar kv2 segs) = stepSeg ar kv2 (stepSeg ar kv segs) := by
  cases hv : kv.2 with
  | none => simp [stepSeg, hv]
  | some v =>
    cases hv2 : kv2.2 with
    | none => simp [stepSeg, hv, hv2]
    | some v2 =>
      simp only [stepSeg, hv, hv2]
      rw [List.map_map, List.map_map]
      refine List.map_congr_left ?_
      intro seg _
      exact setBody_comm kv.1 kv2.1 _ _ seg hne

theorem normAll_stepSeg_comm (ar : Bool) :
    ∀ (entries : List (String × Option String)) (kv : String × Option String)
      (segs : List Seg), (∀ p ∈ entries, kv.1 ≠ p.1) →
      normAll ar entries (stepSeg ar kv segs) =
        stepSeg ar kv (normAll ar entries segs) := by
  intro entries
  induction entries with
  | nil =>
    intro kv segs _
    rfl
  | cons e rest ih =>
    intro kv segs h
    show normAll ar rest (stepSeg ar e (stepSeg ar kv segs)) = _
    rw [← stepSeg_comm ar kv e segs (h e (by simp))]
    rw [ih kv (stepSeg ar e segs) (fun p hp => h p (List.mem_cons_of_mem _ hp))]
    rfl

/-- The key loop's effect on the segment form is idempotent when the
mapping's keys are pairwise distinct. -/
theorem normAll_idem (ar : Bool) :
    ∀ (entries : List (String × Option String)) (segs : List Seg),
      List.Pairwise (fun p q => p.1 ≠ q.1) entries →
      normAll ar entries (normAll ar entries segs) =
        normAll ar entries segs := by
  intro entries
  induction entries with
  | nil =>
    intro segs _
    rfl
  | cons kv rest ih =>
    intro segs hp
    rw [List.pairwise_cons] at hp
    show normAll ar rest (stepSeg ar kv (normAll ar rest (stepSeg ar kv segs))) =
      normAll ar rest (stepSeg ar kv segs)
    rw [← normAll_stepSeg_comm ar rest kv (stepSeg ar kv segs) hp.1]
    rw [stepSeg_idem]
    exact ih (stepSeg ar kv segs) hp.2

theorem segOk_normAll (ar : Bool) :
    ∀ (entries : List (String × Option String)) (segs : List Seg),
      (∀ seg ∈ segs, segOk seg = true) →
      (∀ p ∈ entries, ∀ w, p.2 = some w →
        ltFree (renderValue ar w).data = true) →
      ∀ seg ∈ normAll ar entries segs, segOk seg = true := by
  intro entries
  induction entries with
  | nil =>
    intro segs h _
    exact h
  | cons kv rest ih =>
    intro segs h hvals
    show ∀ seg ∈ normAll ar rest (stepSeg ar kv segs), segOk seg = true
    exact ih (stepSeg ar kv segs)
      (segOk_stepSeg ar kv segs h (hvals kv (by simp)))
      (fun p hp => hvals p (List.mem_cons_of_mem _ hp))

theorem segText_setBody_ne_nil (sm em : String) (k : String) (ins : List Char)
    (seg : Seg) (h : segText sm em seg ≠ []) :
    segText sm em (setBody k ins seg) ≠ [] := by
  cases seg with
  | gap g => exact h
  | blk b =>
    by_cases hbk : b.key = k
    · rw [show setBody k ins (.blk b) =
        .blk { b with body := '\n' :: (ins ++ ['\n']) } from by
        simp [setBody, hbk]]
      show blkText sm em _ ≠ []
      simp [blkText, mkMarker]
    · rw [show setBody k ins (.blk b) = .blk b from by simp [setBody, hbk]]
      exact h

theorem docText_stepSeg_ne_nil (sm em : String) (ar : Bool)
    (kv : String × Option String) (segs : List Seg)
    (h : docText sm em segs ≠ []) :
    docText sm em (stepSeg ar kv segs) ≠ [] := by
  cases hv : kv.2 with
  | none => simpa [stepSeg, hv] using h
  | some w =>
    simp only [stepSeg, hv]
    intro hcon
    refine h ?_
    rw [show docText sm em segs = [] ↔
      ∀ seg ∈ segs, segText sm em seg = [] from by
      simp [docText, List.flatMap_eq_nil_iff]]
    rw [show docText sm em (segs.map (setBody kv.1 (renderValue ar w).data)) = []
      ↔ ∀ seg ∈ segs.map (setBody kv.1 (renderValue ar w).data),
        segText sm em seg = [] from by
      simp [docText, List.flatMap_eq_nil_iff]] at hcon
    intro seg hseg
    by_contra hne
    exact segText_setBody_ne_nil sm em kv.1 _ seg hne
      (hcon _ (List.mem_map_of_mem _ hseg))

theorem docText_normAll_ne_nil (sm em : String) (ar : Bool) :
    ∀ (entries : List (String × Option String)) (segs : List Seg),
      docText sm em segs ≠ [] →
      docText sm em (normAll ar entries segs) ≠ [] := by
  intro entries
  induction entries with
  | nil =>
    intro segs h
    exact h
  | cons kv rest ih =>
    intro segs h
    exact ih (stepSeg ar kv segs) (docText_stepSeg_ne_nil sm em ar kv segs h)

theorem String_mk_eq_empty_iff (l : List Char) : String.mk l = "" ↔ l = [] := by
  constructor
  · intro h
    exact congrArg String.data h
  · intro h
    rw [h]

/-- One full engine call on a disciplined non-empty segment document:
it succeeds and returns the normalised document, as text. -/
theorem rewrite_structured (sm em : String) (pt ar : Bool)
    (entries : List (String × Option String)) (segs : List Seg)
    (hsm : goodName sm = true) (hem : goodName em = true) (hsmem : sm ≠ em)
    (hsegs : ∀ seg ∈ segs, segOk seg = true)
    (hkeys : ∀ p ∈ entries, goodName p.1 = true ∧ p.1 ≠ sm ∧ p.1 ≠ em)
    (hvals : ∀ p ∈ entries, ∀ w, p.2 = some w →
      ltFree (renderValue ar w).data = true)
    (hnil : docText sm em segs ≠ []) :
    rewriteMdComment (.str (String.mk (docText sm em segs))) (.obj entries)
      ⟨pt, sm, em, ar⟩ =
      .ok (.str (String.mk (docText sm em (normAll ar entries segs)))) := by
  unfold rewriteMdComment
  have hS : String.mk (docText sm em segs) ≠ "" := by
    rw [ne_eq, String_mk_eq_empty_iff]
    exact hnil
  have h1 : contentFalsy (toStr (.str (String.mk (docText sm em segs)))) =
      false := by
    simpa [toStr, contentFalsy] using hS
  rw [if_neg (by simp [h1, isPlainObject])]
  have hm : ¬((⟨pt, sm, em, ar⟩ : Options).startMarker = "" ∨
      (⟨pt, sm, em, ar⟩ : Options).endMarker = "") := by
    simp only [not_or]
    constructor
    · show sm ≠ ""
      unfold goodName at hsm
      simp only [Bool.and_eq_true, bne_iff_ne, ne_eq, decide_eq_true_eq] at hsm
      simpa using hsm.1
    · show em ≠ ""
      unfold goodName at hem
      simp only [Bool.and_eq_true, bne_iff_ne, ne_eq, decide_eq_true_eq] at hem
      simpa using hem.1
  rw [if_neg hm]
  simp only [toStr]
  rw [processEntries_structured sm em ar entries segs hsm hem hsmem hkeys
    hvals hsegs]
  simp [Except.map, returnThis, JsDoc.isBuffer]

/-- C8, counterexample: rewriting twice does not always equal rewriting
once.  With nested markers for one key (no key collision in the mapping:
its single key differs from both role names), the first rewrite succeeds -
the non-greedy block match swallows the inner start marker - but its
output has one start and two end markers for the key, so the second
rewrite raises the unmatched-marker error instead of returning the same
content. -/
theorem idempotence_counter :
    rewriteMdComment
        (.str "<!-- v:start --><!-- v:start -->a<!-- v:end -->b<!-- v:end -->")
        (.obj [("v", some "x")]) defaultOptions =
      .ok (.str "<!-- v:start -->\nx\n<!-- v:end -->b<!-- v:end -->") ∧
    rewriteMdComment
        (.str "<!-- v:start -->\nx\n<!-- v:end -->b<!-- v:end -->")
        (.obj [("v", some "x")]) defaultOptions =
      .error (.unmatched "v" 1 2) := by
  constructor <;> decide

/-- C8 (amended): idempotence holds on documents that are concatenations
of marker-free text and disjoint complete blocks.  For disciplined role
names and keys (non-empty, no whitespace and no `<` `-` `:` characters,
roles distinct, keys distinct from each other and from the roles), a
document in segment form (gaps without `<`, complete blocks with
whitespace-only inner runs and `<`-free interiors), and rendered values
without raw `<` (automatic when escaping is on), one rewrite succeeds and
its output is a fixed point of a second rewrite with the same mapping and
options. -/
theorem idempotentOnSegmentDocs (sm em : String) (pt ar : Bool)
    (segs : List Seg) (entries : List (String × Option String))
    (hsm : goodName sm = true) (hem : goodName em = true) (hsmem : sm ≠ em)
    (hsegs : ∀ seg ∈ segs, segOk seg = true)
    (hkeys : ∀ p ∈ entries, goodName p.1 = true ∧ p.1 ≠ sm ∧ p.1 ≠ em)
    (hvals : ∀ p ∈ entries, ∀ w, p.2 = some w →
      ltFree (renderValue ar w).data = true)
    (hnodup : List.Pairwise (fun p q => p.1 ≠ q.1) entries) :
    ∃ once : JsDoc,
      rewriteMdComment (.str (String.mk (docText sm em segs))) (.obj entries)
        ⟨pt, sm, em, ar⟩ = .ok once ∧
      rewriteMdComment once (.obj entries) ⟨pt, sm, em, ar⟩ = .ok once := by
  by_cases hnil : docText sm em segs = []
  · refine ⟨.str (String.mk (docText sm em segs)), ?_, ?_⟩ <;>
    · rw [hnil]
      rw [show String.mk [] = "" from rfl]
      simp [rewriteMdComment, toStr, contentFalsy, returnThis, JsDoc.isBuffer]
  · refine ⟨.str (String.mk (docText sm em (normAll ar entries segs))), ?_, ?_⟩
    · exact rewrite_structured sm em pt ar entries segs hsm hem hsmem hsegs
        hkeys hvals hnil
    · have h2 := rewrite_structured sm em pt ar entries
        (normAll ar entries segs) hsm hem hsmem
        (segOk_normAll ar entries segs hsegs hvals) hkeys hvals
        (docText_normAll_ne_nil sm em ar entries segs hnil)
      rw [normAll_idem ar entries segs hnodup] at h2
      exact h2

theorem idempotentOnSegmentDocs_w :
    ∃ once : JsDoc,
      rewriteMdComment
          (.str (String.mk (docText "start" "end"
            [.gap "# Doc\n".data,
             .blk ⟨"version", [' '], [' '], "0.0.0".data, [' '], [' ']⟩,
             .gap "\ntail".data])))
          (.obj [("version", some "1.2.3"), ("skip", none)])
          ⟨false, "start", "end", false⟩ = .ok once ∧
      rewriteMdComment once
          (.obj [("version", some "1.2.3"), ("skip", none)])
          ⟨false, "start", "end", false⟩ = .ok once :=
  idempotentOnSegmentDocs "start" "end" false false
    [.gap "# Doc\n".data,
     .blk ⟨"version", [' '], [' '], "0.0.0".data, [' '], [' ']⟩,
     .gap "\ntail".data]
    [("version", some "1.2.3"), ("skip", none)]
    (by decide) (by decide) (by decide) (by decide) (by decide) (by decide)
    (by decide)

end RewriteMd
